import Mathlib

/-!
Verification of the bit-packed buffer library.

The repository contains two variants of the `BitPackedBuffer` class:
the namespaced-API variant (the class with `read.bits` / `write.bits`
tables, private methods `#readBits` / `#writeBits`; called `P0` below),
and `src/src/Buffer.js` (plain methods `readBits` / `writeBits`; called
`BJS` below), plus the shared `swapEndianness` / `le2be` byte-order
transforms in `src/src/utils.js`.

The embedding models JS numbers that stay integral as `Nat`/`Int`
(32-bit coercions `ToUint32` / `ToInt32` are explicit), and JS numbers
that may be fractional as `ℚ`.  `Uint8Array` contents are a `List Nat`;
a store into the array coerces the value with `% 256` and a store out of
bounds is dropped, as in JS.  The `while` loops of `#readBits` /
`#writeBits` are modelled with an explicit fuel argument that is
structurally decreasing; every iteration of the source loops consumes at
least one bit, so fuel equal to the bit count is sufficient (proved in
the `fuel` lemmas below), and the `Err.fuel` branch is unreachable on
every call made by the API functions.
-/

namespace BitPacked

/-- JS `ToUint32`: the operand's 32-bit pattern as a natural number. -/
def toUint32 (i : Int) : Nat := (i % (2 ^ 32 : Int)).toNat

/-- JS `ToInt32`: the operand's 32-bit pattern read as a signed 32-bit value. -/
def toInt32 (i : Int) : Int :=
  if toUint32 i < 2 ^ 31 then (toUint32 i : Int) else (toUint32 i : Int) - 2 ^ 32

/-- Truncation of a JS number toward zero (the first step of `ToUint32`). -/
def jsTrunc (q : ℚ) : Int := if 0 ≤ q then ⌊q⌋ else -⌊-q⌋

/-- JS `ToUint32` applied to an arbitrary (finite, rational) JS number. -/
def toUint32Q (q : ℚ) : Nat := toUint32 (jsTrunc q)

/-- The uint32 bit pattern of the JS sign-propagating shift `v >> s`
(`v` given by its uint32 pattern; the shift count is masked with 31, and
`Int.fdiv` by a power of two is exactly the arithmetic right shift). -/
def sarPattern (v s : Nat) : Nat := toUint32 (Int.fdiv (toInt32 (v : Int)) (2 ^ (s % 32)))

/-- The int32 value of the JS shift `1 << n` (the shift count wraps mod 32:
`1 << 31` is negative and `1 << 32` is `1`). -/
def jsOneShl (n : Nat) : Int := toInt32 ((1 <<< (n % 32) : Nat) : Int)

/-- JS bitwise `a & b` on int32 values. -/
def jsAnd (a b : Int) : Int := toInt32 ((Nat.land (toUint32 a) (toUint32 b) : Nat) : Int)

/-- JS bitwise `a | b` on int32 values. -/
def jsOr (a b : Int) : Int := toInt32 ((Nat.lor (toUint32 a) (toUint32 b) : Nat) : Int)

/-- JS `a << s` on int32 values. -/
def jsShl (a : Int) (s : Nat) : Int := toInt32 (((toUint32 a <<< (s % 32) : Nat)) : Int)

/-- JS `a >> s` on int32 values (sign-propagating). -/
def jsShr (a : Int) (s : Nat) : Int := Int.fdiv (toInt32 a) (2 ^ (s % 32))

/-- Error values raised by the library (JS `RangeError`, `TypeError`,
the plain `Error` of `reset`, the `UNREACHABLE` error of the endianness
transforms, and the fuel marker of the loop embedding). -/
inductive Err where
  | range (msg : String)
  | type (msg : String)
  | notFound (msg : String)
  | unreachable
  | fuel
deriving Repr, DecidableEq

/-- A snapshot stored in the `marks` map: `{position, remainingBits, currentByte}`. -/
structure Mark where
  position : Nat
  remainingBits : Nat
  currentByte : Nat
deriving Repr, DecidableEq

/-- Keys of the `marks` map: caller-chosen strings, or the private
`kPeekMark` symbol (a `Symbol` can never equal a string, so it gets its
own constructor). -/
inductive MarkName where
  | user (s : String)
  | kPeekMark
deriving Repr, DecidableEq

/-- The state of a `BitPackedBuffer` instance (both variants share this
shape; `BJS` initialises `currentByte` to `null`, modelled as `0`, which
is never read before being overwritten).  `marks` is modelled by its
lookup function. -/
structure Buffer where
  data : List Nat
  position : Nat
  currentByte : Nat
  remainingBits : Nat
  isBigEndian : Bool
  marks : MarkName → Option Mark

/-- `swapEndianness(value, numberOfBytes)` from `src/src/utils.js`, as the
uint32 pattern of its result.  The function ends in `>>> 0`, and every
`&`-mask keeps each intermediate term below `2 ^ 32` with pairwise
disjoint bit ranges, so the pattern arithmetic below is exact; the input
is coerced through its uint32 pattern first. -/
def swapEndianness (value : Nat) (numberOfBytes : Nat) : Except Err Nat :=
  let v := value % 2 ^ 32
  match numberOfBytes with
  | 2 => .ok (Nat.lor ((Nat.land v 0xff) <<< 8) (Nat.land (v >>> 8) 0xff))
  | 3 => .ok (Nat.lor (Nat.lor ((Nat.land v 0xff) <<< 16) (Nat.land v 0xff00))
        (Nat.land (v >>> 16) 0xff))
  | 4 => .ok (Nat.lor (Nat.lor (Nat.lor ((Nat.land v 0xff) <<< 24) ((Nat.land v 0xff00) <<< 8))
        ((Nat.land v 0xff0000) >>> 8)) (Nat.land (v >>> 24) 0xff))
  | _ => .error .unreachable

/-- `le2be(value, numberOfBytes)` from `src/src/Buffer.js` (bottom of the
file): same byte swap but built from int32 operations and without the
final `>>> 0`, so the result is an int32 value that may be negative. -/
def le2be (value : Int) (numberOfBytes : Nat) : Except Err Int :=
  match numberOfBytes with
  | 2 => .ok (jsOr (jsShl (jsAnd value 0xff) 8) (jsAnd (jsShr value 8) 0xff))
  | 3 => .ok (jsOr (jsOr (jsShl (jsAnd value 0xff) 16) (jsAnd value 0xff00))
        (jsAnd (jsShr value 16) 0xff))
  | 4 => .ok (jsOr (jsOr (jsOr (jsShl (jsAnd value 0xff) 24) (jsShl (jsAnd value 0xff00) 8))
        (jsShr (jsAnd value 0xff0000) 8)) (jsAnd (jsShr value 24) 0xff))
  | _ => .error .unreachable

/-- `#resize(size)` of the namespaced variant: a fresh zero-filled
`Uint8Array` of length `max(size, 2 * length)` with the old bytes copied
in front. -/
def resizeTo (data : List Nat) (size : Nat) : List Nat :=
  data ++ List.replicate (max size (data.length * 2) - data.length) 0

/-- The refill step shared by both `readBits` loops: when no bits remain
pending, pull the next whole byte (or fail with the variant's underrun
error). -/
def readRefill (data : List Nat) (underrun : Err) (pos cur rem : Nat) :
    Except Err (Nat × Nat × Nat) :=
  if rem = 0 then
    if data.length ≤ pos then .error underrun
    else .ok (pos + 1, data.getD pos 0, 8)
  else .ok (pos, cur, rem)

/-- The `while (bitsObtained < bitCount)` loop of `#readBits` (the same
statements appear verbatim in `BJS.readBits`; only the underrun error
differs, hence the parameter).  `result` carries the uint32 pattern of
the JS accumulator, so the `<<`/`|` update keeps an explicit `% 2 ^ 32`;
`bitsLeft` is `bitCount - bitsObtained`.  `fuel` only bounds the number
of iterations. -/
def readBitsLoop (data : List Nat) (underrun : Err) :
    Nat → Nat → Nat → Nat → Nat → Nat → Except Err (Nat × Nat × Nat × Nat)
  | _, pos, cur, rem, result, 0 => .ok (result, pos, cur, rem)
  | 0, _, _, _, _, _ + 1 => .error .fuel
  | fuel + 1, pos, cur, rem, result, bitsLeft + 1 =>
    match readRefill data underrun pos cur rem with
    | .error e => .error e
    | .ok (pos1, cur1, rem1) =>
      let bitsToRead := min (bitsLeft + 1) rem1
      let mask := (1 <<< bitsToRead) - 1
      let shift := rem1 - bitsToRead
      let bits := Nat.land (cur1 >>> shift) mask
      let result1 := Nat.lor ((result <<< bitsToRead) % 2 ^ 32) bits
      readBitsLoop data underrun fuel pos1 cur1 (rem1 - bitsToRead) result1
        (bitsLeft + 1 - bitsToRead)

/-- The `while (bitCount > 0)` loop of `#writeBits` of the namespaced
variant: refill (growing the array when the next position is past the
end), place the most significant remaining bits, commit the byte when it
fills.  The store coerces with `% 256` as a `Uint8Array` element store
does; `value` is a uint32 pattern and `value >> shift` is the JS
sign-propagating shift. -/
def writeBitsLoop :
    Nat → List Nat → Nat → Nat → Nat → Nat → Nat → Except Err (List Nat × Nat × Nat × Nat)
  | _, data, pos, cur, rem, _, 0 => .ok (data, pos, cur, rem)
  | 0, _, _, _, _, _, _ + 1 => .error .fuel
  | fuel + 1, data, pos, cur, rem, value, bitCount + 1 =>
    let data1 := if rem = 0 then (if data.length ≤ pos then resizeTo data (pos + 1) else data)
      else data
    let cur1 := if rem = 0 then 0 else cur
    let rem1 := if rem = 0 then 8 else rem
    let bitsToWrite := min (bitCount + 1) rem1
    let shift := bitCount + 1 - bitsToWrite
    let bits := Nat.land (sarPattern value shift) ((1 <<< bitsToWrite) - 1)
    let cur2 := Nat.lor cur1 (bits <<< (rem1 - bitsToWrite))
    let rem2 := rem1 - bitsToWrite
    if rem2 = 0 then
      writeBitsLoop fuel (data1.set pos (cur2 % 256)) (pos + 1) cur2 rem2 value
        (bitCount + 1 - bitsToWrite)
    else
      writeBitsLoop fuel data1 pos cur2 rem2 value (bitCount + 1 - bitsToWrite)

end BitPacked

namespace P0

open BitPacked

/-- The constructor of the namespaced variant: default contents empty,
`isBigEndian` iff the endian string is exactly `big`, empty marks map. -/
def mkBuffer (contents : List Nat) (endian : String) : Buffer :=
  { data := contents, position := 0, currentByte := 0, remainingBits := 0,
    isBigEndian := endian = "big", marks := fun _ => none }

/-- `#readBits(bitCount)` of the namespaced variant.  The guard is the
source's `bitCount <= 0 || bitCount > 32` (no integrality check); the
final `result >>> 0` is the identity on the loop's uint32 pattern.  The
loop fuel is the bit count itself, which is sufficient. -/
def readBits (st : Buffer) (bitCount : Int) : Except Err (Nat × Buffer) :=
  if bitCount ≤ 0 ∨ 32 < bitCount then
    .error (.range "Bit count must be between 1 and 32")
  else
    let n := bitCount.toNat
    match readBitsLoop st.data (.range "Buffer underrun while reading bits") n
        st.position st.currentByte st.remainingBits 0 n with
    | .error e => .error e
    | .ok (result, pos, cur, rem) =>
      let st1 : Buffer :=
        { st with position := pos, currentByte := cur, remainingBits := rem }
      if 8 < n ∧ st.isBigEndian = false then
        match swapEndianness result ((n + 7) / 8) with
        | .error e => .error e
        | .ok r => .ok (r, st1)
      else .ok (result, st1)

/-- `#writeBits(value, bitCount)` of the namespaced variant.  `value` is
a JS number (possibly fractional, hence `ℚ`); when the little-endian
swap applies it goes through the uint32 coercion inside
`swapEndianness`, and otherwise through the explicit `value >>> 0`. -/
def writeBits (st : Buffer) (value : ℚ) (bitCount : Int) : Except Err Buffer :=
  if bitCount ≤ 0 ∨ 32 < bitCount then
    .error (.range "Bit count must be between 1 and 32")
  else
    let n := bitCount.toNat
    let swapped : Except Err Nat :=
      if 8 < n ∧ st.isBigEndian = false then swapEndianness (toUint32Q value) ((n + 7) / 8)
      else .ok (toUint32Q value)
    match swapped with
    | .error e => .error e
    | .ok v =>
      match writeBitsLoop n st.data st.position st.currentByte st.remainingBits v n with
      | .error e => .error e
      | .ok (data, pos, cur, rem) =>
        .ok { st with data := data, position := pos, currentByte := cur, remainingBits := rem }

/-- `alignToByte(last)` of the namespaced variant.  In the `last` branch
the store index is `position - 1` over the integers: a negative index on
a `Uint8Array` is silently dropped. -/
def alignToByte (st : Buffer) (last : Bool) : Buffer :=
  if 0 < st.remainingBits ∧ st.remainingBits < 8 then
    if last = false then
      { st with data := st.data.set st.position (st.currentByte % 256),
                position := st.position + 1, remainingBits := 0, currentByte := 0 }
    else
      { st with data := if st.position = 0 then st.data
                  else st.data.set (st.position - 1) (st.currentByte % 256),
                remainingBits := 0, currentByte := 0 }
  else st

/-- `seek(position)` of the namespaced variant. -/
def seek (st : Buffer) (pos : Int) : Except Err Buffer :=
  if pos < 0 then .error (.range "Cannot seek to negative position")
  else
    let st1 := if (st.data.length : Int) < pos then
        { st with data := resizeTo st.data pos.toNat } else st
    let st2 := alignToByte st1 false
    .ok { st2 with position := pos.toNat, currentByte := 0, remainingBits := 0 }

/-- `skip(bytes)` of the namespaced variant. -/
def skip (st : Buffer) (bytes : Int) : Except Err Buffer :=
  seek st ((st.position : Int) + bytes)

/-- `mark(name)` of the namespaced variant: store a snapshot of
`position`, `remainingBits`, `currentByte` under `name` (overwriting). -/
def mark (st : Buffer) (name : MarkName) : Buffer :=
  { st with marks := fun k =>
      if k = name then some ⟨st.position, st.remainingBits, st.currentByte⟩ else st.marks k }

/-- `reset(name)` of the namespaced variant: fail if no snapshot exists,
else align the partial byte and restore the three snapshot fields. -/
def reset (st : Buffer) (name : MarkName) : Except Err Buffer :=
  match st.marks name with
  | none => .error (.notFound "Mark not found")
  | some m =>
    let st1 := alignToByte st false
    .ok { st1 with position := m.position, remainingBits := m.remainingBits,
                   currentByte := m.currentByte }

/-- `read.bits(count)` of the namespaced variant. -/
def readBitsOp (st : Buffer) (count : Int) : Except Err (Nat × Buffer) :=
  readBits st count

/-- The `for` loop of `read.bytes`: `count` calls of `#readBits(8)`,
collected in order. -/
def readBytesLoop (st : Buffer) : Nat → Except Err (List Nat × Buffer)
  | 0 => .ok ([], st)
  | count + 1 =>
    match readBits st 8 with
    | .error e => .error e
    | .ok (b, st1) =>
      match readBytesLoop st1 count with
      | .error e => .error e
      | .ok (bs, st2) => .ok (b :: bs, st2)

/-- `read.bytes(count)` of the namespaced variant: align to the next
byte, then read `count` whole bytes. -/
def readBytes (st : Buffer) (count : Nat) : Except Err (List Nat × Buffer) :=
  readBytesLoop (alignToByte st false) count

/-- `read.int(bitCount)` of the namespaced variant: `1 << (bitCount - 1)`
and `1 << bitCount` are JS int32 shifts (which wrap for bit counts 31 and
32). -/
def readInt (st : Buffer) (bitCount : Int) : Except Err (Int × Buffer) :=
  match readBits st bitCount with
  | .error e => .error e
  | .ok (value, st1) =>
    let signBit := jsOneShl (bitCount.toNat - 1)
    if jsAnd (value : Int) signBit ≠ 0 then .ok ((value : Int) - jsOneShl bitCount.toNat, st1)
    else .ok ((value : Int), st1)

/-- `write.int(value, bitCount)` of the namespaced variant: bias a
negative value by the JS int32 `1 << bitCount` before writing. -/
def writeInt (st : Buffer) (value : ℚ) (bitCount : Int) : Except Err Buffer :=
  let v := if value < 0 then value + ((jsOneShl bitCount.toNat : Int) : ℚ) else value
  writeBits st v bitCount

/-- The `for..of` loop of `write.bytes`. -/
def writeBytesLoop (st : Buffer) : List ℚ → Except Err Buffer
  | [] => .ok st
  | b :: bs =>
    match writeBits st b 8 with
    | .error e => .error e
    | .ok st1 => writeBytesLoop st1 bs

/-- `write.bytes(bytes)` of the namespaced variant. -/
def writeBytes (st : Buffer) (bytes : List ℚ) : Except Err Buffer :=
  writeBytesLoop (alignToByte st false) bytes

/-- `peek.bits(count)`: mark under the private symbol, read, reset. -/
def peekBits (st : Buffer) (count : Int) : Except Err (Nat × Buffer) :=
  match readBits (mark st .kPeekMark) count with
  | .error e => .error e
  | .ok (v, st1) =>
    match reset st1 .kPeekMark with
    | .error e => .error e
    | .ok st2 => .ok (v, st2)

/-- `peek.bytes(count)`: mark under the private symbol, read bytes, reset. -/
def peekBytes (st : Buffer) (count : Nat) : Except Err (List Nat × Buffer) :=
  match readBytes (mark st .kPeekMark) count with
  | .error e => .error e
  | .ok (v, st1) =>
    match reset st1 .kPeekMark with
    | .error e => .error e
    | .ok st2 => .ok (v, st2)

/-- `clear()` of the namespaced variant. -/
def clear (st : Buffer) : Buffer :=
  { st with data := [], position := 0, currentByte := 0, remainingBits := 0,
            marks := fun _ => none }

/-- `isComplete()` of the namespaced variant. -/
def isComplete (st : Buffer) : Bool :=
  st.remainingBits = 0 && st.data.length ≤ st.position

/-- `getBuffer()` of the namespaced variant: align updating the last
byte, then copy the prefix up to `position`. -/
def getBuffer (st : Buffer) : List Nat × Buffer :=
  let st1 := alignToByte st true
  (st1.data.take st1.position, st1)

end P0

namespace BufferJs

open BitPacked

/-- `#resize(newSize)` of `src/src/Buffer.js`: a fresh zero-filled array
of exactly `newSize` with the old bytes copied in front (every call site
passes a size larger than the current length). -/
def resizeTo (data : List Nat) (newSize : Nat) : List Nat :=
  data ++ List.replicate (newSize - data.length) 0

/-- `readBits(bitCount)` of `src/src/Buffer.js`.  `bitCount` is an
arbitrary JS number (`ℚ`), checked with `Number.isInteger`; the byte
loop is statement-for-statement the loop of the namespaced variant (only
the underrun error differs), but the byte-order swap `le2be` is applied
when the buffer IS big-endian. -/
def readBits (st : Buffer) (bitCount : ℚ) : Except Err (Nat × Buffer) :=
  if ¬(bitCount.den = 1) ∨ bitCount ≤ 0 then
    .error (.type "Bit count must be a positive integer")
  else if 32 < bitCount then
    .error (.range "Cannot read more than 32 bits at once")
  else
    let n := bitCount.num.toNat
    match readBitsLoop st.data (.range "Buffer read out of bounds") n
        st.position st.currentByte st.remainingBits 0 n with
    | .error e => .error e
    | .ok (result, pos, cur, rem) =>
      let st1 : Buffer :=
        { st with position := pos, currentByte := cur, remainingBits := rem }
      if 8 < n ∧ st.isBigEndian = true then
        match le2be (result : Int) ((n + 7) / 8) with
        | .error e => .error e
        | .ok r => .ok (toUint32 r, st1)
      else .ok (result, st1)

/-- The `while (bitCount > 0)` loop of `writeBits` in `src/src/Buffer.js`:
no growth inside the loop (capacity was ensured up front), and the
current byte is zeroed after each commit.  `value` is the uint32 pattern
of the masked value. -/
def writeBitsLoop :
    Nat → List Nat → Nat → Nat → Nat → Nat → Nat → Except Err (List Nat × Nat × Nat × Nat)
  | _, data, pos, cur, rem, _, 0 => .ok (data, pos, cur, rem)
  | 0, _, _, _, _, _, _ + 1 => .error .fuel
  | fuel + 1, data, pos, cur, rem, value, bitCount + 1 =>
    let cur1 := if rem = 0 then 0 else cur
    let rem1 := if rem = 0 then 8 else rem
    let bitsToWrite := min (bitCount + 1) rem1
    let mask := (1 <<< bitsToWrite) - 1
    let shift := bitCount + 1 - bitsToWrite
    let bits := Nat.land (sarPattern value shift) mask
    let cur2 := Nat.lor cur1 (bits <<< (rem1 - bitsToWrite))
    let rem2 := rem1 - bitsToWrite
    if rem2 = 0 then
      writeBitsLoop fuel (data.set pos (cur2 % 256)) (pos + 1) 0 rem2 value
        (bitCount + 1 - bitsToWrite)
    else
      writeBitsLoop fuel data pos cur2 rem2 value (bitCount + 1 - bitsToWrite)

/-- `writeBits(value, bitCount)` of `src/src/Buffer.js`: integrality
checks on both arguments, big-endian byte swap, up-front exact resize to
`ceil((position * 8 - remainingBits + bitCount) / 8)` bytes, then the
value is masked with the JS int32 `(1 << bitCount) - 1` and packed. -/
def writeBits (st : Buffer) (value : ℚ) (bitCount : ℚ) : Except Err Buffer :=
  if ¬(bitCount.den = 1) ∨ bitCount ≤ 0 then
    .error (.type "Bit count must be a positive integer")
  else if 32 < bitCount then
    .error (.range "Cannot write more than 32 bits at once")
  else if ¬(value.den = 1) then
    .error (.type "Value must be an integer")
  else
    let n := bitCount.num.toNat
    let swapped : Except Err Int :=
      if 8 < n ∧ st.isBigEndian = true then le2be value.num ((n + 7) / 8)
      else .ok value.num
    match swapped with
    | .error e => .error e
    | .ok v0 =>
      let requiredBytes := Int.fdiv (8 * (st.position : Int) - (st.remainingBits : Int)
        + (n : Int) + 7) 8
      let data0 := if (st.data.length : Int) < requiredBytes then
          resizeTo st.data requiredBytes.toNat else st.data
      let v := toUint32 (jsAnd v0 (jsOneShl n - 1))
      match writeBitsLoop n data0 st.position st.currentByte st.remainingBits v n with
      | .error e => .error e
      | .ok (data, pos, cur, rem) =>
        .ok { st with data := data, position := pos, currentByte := cur, remainingBits := rem }

end BufferJs

namespace BitPacked

/-- Byte `j` (counting from the most significant end) of the big-endian
packing of the `n`-bit value `w`; for the trailing partial byte the bits
sit at the most significant end, zero-padded below. -/
def nthByteBE (w n j : Nat) : Nat :=
  if 8 * (j + 1) ≤ n then (w >>> (n - 8 * (j + 1))) % 256
  else (w % 2 ^ (n - 8 * j)) <<< (8 * (j + 1) - n)

/-- The scenario of the bit round-trip property: a fresh buffer with the
given endianness, `write.bits(v, n)`, `seek(0)`, `read.bits(n)`. -/
def roundTripBits (e : Bool) (v : ℚ) (n : Int) : Except Err Nat :=
  match P0.writeBits (P0.mkBuffer [] (if e then "big" else "little")) v n with
  | .error er => .error er
  | .ok st1 =>
    match P0.seek st1 0 with
    | .error er => .error er
    | .ok st2 =>
      match P0.readBits st2 n with
      | .error er => .error er
      | .ok (r, _) => .ok r

/-- The scenario of the signed round-trip property: a fresh buffer with
default (big) endianness, `write.int(v, n)`, `seek(0)`, `read.int(n)`. -/
def roundTripInt (v : ℚ) (n : Int) : Except Err Int :=
  match P0.writeInt (P0.mkBuffer [] "big") v n with
  | .error er => .error er
  | .ok st1 =>
    match P0.seek st1 0 with
    | .error er => .error er
    | .ok st2 =>
      match P0.readInt st2 n with
      | .error er => .error er
      | .ok (r, _) => .ok r

/-- One read, write or seek operation of the namespaced variant, for
stating properties about arbitrary operation sequences. -/
inductive Op where
  | rbits (n : Int)
  | rbytes (c : Nat)
  | wbits (v : ℚ) (n : Int)
  | wbytes (bs : List ℚ)
  | seekTo (p : Int)
  | skipBy (b : Int)

/-- Apply one operation (discarding any read value). -/
def applyOp (st : Buffer) : Op → Except Err Buffer
  | .rbits n =>
    match P0.readBits st n with
    | .error e => .error e
    | .ok (_, st1) => .ok st1
  | .rbytes c =>
    match P0.readBytes st c with
    | .error e => .error e
    | .ok (_, st1) => .ok st1
  | .wbits v n => P0.writeBits st v n
  | .wbytes bs => P0.writeBytes st bs
  | .seekTo p => P0.seek st p
  | .skipBy b => P0.skip st b

/-- Run a sequence of operations, stopping at the first error (a thrown
JS exception aborts the sequence). -/
def runOps (st : Buffer) : List Op → Except Err Buffer
  | [] => .ok st
  | op :: ops =>
    match applyOp st op with
    | .error e => .error e
    | .ok st1 => runOps st1 ops

/-- The pending-bits invariant: `remainingBits` lies in `[0, 8)`, and so
does every snapshot stored in the marks map. -/
def WF (st : Buffer) : Prop :=
  st.remainingBits < 8 ∧ ∀ name m, st.marks name = some m → m.remainingBits < 8

/-- The cursor fields compared across variants and snapshots. -/
def cursorOf (st : Buffer) : Nat × Nat × Nat :=
  (st.position, st.remainingBits, st.currentByte)

/-- The same buffer with the opposite endianness flag. -/
def flipEndian (st : Buffer) : Buffer :=
  { st with isBigEndian := !st.isBigEndian }

end BitPacked

-- ==================== theorems ====================

namespace BitPacked

theorem toUint32_natCast (n : Nat) (h : n < 2 ^ 32) : toUint32 (n : Int) = n := by
  unfold toUint32
  rw [Int.emod_eq_of_lt (by positivity) (by exact_mod_cast h)]
  simp

theorem toInt32_natCast (n : Nat) (h : n < 2 ^ 31) : toInt32 (n : Int) = n := by
  unfold toInt32
  rw [toUint32_natCast n (lt_trans h (by norm_num))]
  have h31 : n < 2 ^ 31 := h
  simp only [if_pos h31]

theorem jsTrunc_natCast (n : Nat) : jsTrunc (n : ℚ) = n := by
  unfold jsTrunc
  rw [if_pos (by positivity)]
  exact_mod_cast Int.floor_natCast n

theorem jsTrunc_intCast (i : Int) : jsTrunc (i : ℚ) = i := by
  unfold jsTrunc
  by_cases h : (0 : ℚ) ≤ (i : ℚ)
  · rw [if_pos h]; exact_mod_cast Int.floor_intCast i
  · rw [if_neg h]
    have : ((-i : Int) : ℚ) = -(i : ℚ) := by push_cast; ring
    rw [← this, Int.floor_intCast]; ring

theorem toUint32Q_natCast (n : Nat) (h : n < 2 ^ 32) : toUint32Q (n : ℚ) = n := by
  unfold toUint32Q
  rw [jsTrunc_natCast, toUint32_natCast n h]

theorem lor_mul_pow_add {b k : Nat} (a : Nat) (h : b < 2 ^ k) :
    Nat.lor (2 ^ k * a) b = 2 ^ k * a + b := (Nat.mul_add_lt_is_or h a).symm

theorem lor_shiftLeft_add {b k : Nat} (a : Nat) (h : b < 2 ^ k) :
    Nat.lor (a <<< k) b = a * 2 ^ k + b := by
  rw [Nat.shiftLeft_eq, Nat.mul_comm a (2 ^ k), lor_mul_pow_add a h]

theorem natLor_zero (n : Nat) : Nat.lor 0 n = n := Nat.zero_or n

theorem lor_mul_pow_add_comm {b k : Nat} (a : Nat) (h : b < 2 ^ k) :
    Nat.lor (a * 2 ^ k) b = a * 2 ^ k + b := by
  rw [Nat.mul_comm a (2 ^ k), lor_mul_pow_add a h]

theorem shiftRight_mod_of_le {w m s k : Nat} (h : s + k ≤ m) :
    ((w % 2 ^ m) >>> s) % 2 ^ k = (w >>> s) % 2 ^ k := by
  rw [Nat.shiftRight_eq_div_pow, Nat.shiftRight_eq_div_pow]
  have hm : (2 : Nat) ^ m = 2 ^ s * 2 ^ (m - s) := by
    rw [← pow_add]; congr 1; omega
  rw [hm, Nat.mod_mul_right_div_self,
    Nat.mod_mod_of_dvd _ (pow_dvd_pow 2 (by omega))]

theorem land_mask_eq_mod (n k : Nat) : Nat.land n (2 ^ k - 1) = n % 2 ^ k :=
  Nat.and_pow_two_sub_one_eq_mod n k

end BitPacked

namespace BitPacked

theorem toUint32_nonneg_lt (i : Int) (h0 : 0 ≤ i) (h : i < 2 ^ 32) :
    (toUint32 i : Int) = i := by
  unfold toUint32
  rw [Int.emod_eq_of_lt h0 (by exact_mod_cast h)]
  exact Int.toNat_of_nonneg h0

theorem toUint32_neg_lt (i : Int) (h0 : -(2 ^ 32) ≤ i) (h : i < 0) :
    (toUint32 i : Int) = i + 2 ^ 32 := by
  unfold toUint32
  have : i % (2 ^ 32 : Int) = (i + 2 ^ 32) % 2 ^ 32 := by omega
  rw [this, Int.emod_eq_of_lt (by omega) (by omega)]
  omega

/-- Bridge between the JS sign-propagating shift and the plain shift: as
long as the mask keeps only bits strictly below the sign-extension
region, `(v >> s) & (2 ^ k - 1)` agrees with the unsigned shift. -/
theorem sarPattern_land {v s k : Nat} (hv : v < 2 ^ 32) (hs : s < 32) (hk : s + k ≤ 32) :
    Nat.land (sarPattern v s) (2 ^ k - 1) = (v >>> s) % 2 ^ k := by
  rw [land_mask_eq_mod, Nat.shiftRight_eq_div_pow]
  unfold sarPattern
  rw [Nat.mod_eq_of_lt hs]
  have hcastdiv : (v : Int) / ((2 : Int) ^ s) = ((v / 2 ^ s : Nat) : Int) := by
    have : ((2 : Int) ^ s) = ((2 ^ s : Nat) : Int) := by push_cast; ring
    rw [this]
    rfl
  by_cases h31 : v < 2 ^ 31
  · rw [toInt32_natCast v h31, Int.fdiv_eq_ediv _ (by positivity), hcastdiv,
      toUint32_natCast _ (lt_of_le_of_lt (Nat.div_le_self _ _) hv)]
  · have hvu : toUint32 (v : Int) = v := toUint32_natCast v hv
    have ht : toInt32 (v : Int) = (v : Int) - 2 ^ 32 := by
      unfold toInt32
      rw [hvu, if_neg (by omega)]
    rw [ht, Int.fdiv_eq_ediv _ (by positivity)]
    have h32 : ((v : Int) - 2 ^ 32) = (v : Int) + (-((2 : Int) ^ (32 - s))) * 2 ^ s := by
      have hp : (2 : Int) ^ 32 = 2 ^ (32 - s) * 2 ^ s := by
        rw [← pow_add]; congr 1; omega
      rw [hp]; ring
    rw [h32, Int.add_mul_ediv_right _ _ (by positivity : (0 : Int) < 2 ^ s).ne', hcastdiv]
    have hdlt : v / 2 ^ s < 2 ^ (32 - s) := by
      apply Nat.div_lt_of_lt_mul
      calc v < 2 ^ 32 := hv
        _ = 2 ^ s * 2 ^ (32 - s) := by rw [← pow_add]; congr 1; omega
    have hneg : ((v / 2 ^ s : Nat) : Int) + (-((2 : Int) ^ (32 - s))) < 0 := by
      have : ((v / 2 ^ s : Nat) : Int) < ((2 ^ (32 - s) : Nat) : Int) := by exact_mod_cast hdlt
      push_cast at this ⊢
      omega
    have hge : -((2 : Int) ^ 32) ≤ ((v / 2 ^ s : Nat) : Int) + (-((2 : Int) ^ (32 - s))) := by
      have h1 : (2 : Int) ^ (32 - s) ≤ 2 ^ 32 := by
        apply pow_le_pow_right (by norm_num); omega
      have h2 : (0 : Int) ≤ ((v / 2 ^ s : Nat) : Int) := by positivity
      omega
    have hval := toUint32_neg_lt _ hge hneg
    have hle : (2 : Nat) ^ (32 - s) ≤ 2 ^ 32 := Nat.pow_le_pow_right (by norm_num) (by omega)
    have htn : toUint32 (((v / 2 ^ s : Nat) : Int) + (-((2 : Int) ^ (32 - s)))) =
        v / 2 ^ s + (2 ^ 32 - 2 ^ (32 - s)) := by
      have hcast : (toUint32 (((v / 2 ^ s : Nat) : Int) + (-((2 : Int) ^ (32 - s)))) : Int) =
          ((v / 2 ^ s + (2 ^ 32 - 2 ^ (32 - s)) : Nat) : Int) := by
        rw [hval, Nat.cast_add, Nat.cast_sub hle]
        push_cast
        ring
      exact_mod_cast hcast
    rw [htn]
    have hd1 : (2 : Nat) ^ k ∣ 2 ^ 32 := pow_dvd_pow 2 (by omega)
    have hd2 : (2 : Nat) ^ k ∣ 2 ^ (32 - s) := pow_dvd_pow 2 (by omega)
    obtain ⟨t, ht2⟩ := Nat.dvd_sub' hd1 hd2
    rw [ht2, Nat.add_mul_mod_self_left]

end BitPacked

namespace BitPacked

theorem nthByteBE_lt (w n j : Nat) (h : 8 * j < n) : nthByteBE w n j < 256 := by
  unfold nthByteBE
  by_cases hc : 8 * (j + 1) ≤ n
  · rw [if_pos hc]; exact Nat.mod_lt _ (by norm_num)
  · rw [if_neg hc, Nat.shiftLeft_eq]
    calc (w % 2 ^ (n - 8 * j)) * 2 ^ (8 * (j + 1) - n)
        < 2 ^ (n - 8 * j) * 2 ^ (8 * (j + 1) - n) := by
          exact (Nat.mul_lt_mul_right (by positivity)).mpr (Nat.mod_lt _ (by positivity))
      _ = 2 ^ ((n - 8 * j) + (8 * (j + 1) - n)) := by rw [← pow_add]
      _ ≤ 2 ^ 8 := Nat.pow_le_pow_right (by norm_num) (by omega)
      _ = 256 := by norm_num

theorem nthByteBE_succ (w n j : Nat) (h : 8 < n) (h2 : 8 * (j + 1) < n) :
    nthByteBE w n (j + 1) = nthByteBE (w % 2 ^ (n - 8)) (n - 8) j := by
  unfold nthByteBE
  have h256 : (256 : Nat) = 2 ^ 8 := by norm_num
  by_cases hc : 8 * (j + 2) ≤ n
  · rw [if_pos (by omega : 8 * (j + 1 + 1) ≤ n), if_pos (by omega : 8 * (j + 1) ≤ n - 8)]
    have he : (n - 8) - 8 * (j + 1) = n - 8 * (j + 1 + 1) := by omega
    rw [he, h256, shiftRight_mod_of_le (by omega)]
  · rw [if_neg (by omega : ¬ 8 * (j + 1 + 1) ≤ n), if_neg (by omega : ¬ 8 * (j + 1) ≤ n - 8)]
    have he1 : (n - 8) - 8 * j = n - 8 * (j + 1) := by omega
    have he2 : 8 * (j + 1) - (n - 8) = 8 * (j + 1 + 1) - n := by omega
    rw [he1, he2, Nat.mod_mod_of_dvd _ (pow_dvd_pow 2 (by omega))]

theorem readBitsLoop_spec :
    ∀ fuel n, 1 ≤ n → n ≤ 32 → n ≤ fuel →
    ∀ (w result : Nat) (data : List Nat) (pos cur : Nat) (err : Err),
    w < 2 ^ n → result < 2 ^ (32 - n) →
    (∀ j, j < (n + 7) / 8 → data.getD (pos + j) 0 = nthByteBE w n j) →
    pos + (n + 7) / 8 ≤ data.length →
    ∃ cur2 rem2, readBitsLoop data err fuel pos cur 0 result n =
      .ok (result * 2 ^ n + w, pos + (n + 7) / 8, cur2, rem2) := by
  intro fuel
  induction fuel with
  | zero => intro n h1 _ h3; omega
  | succ fuel ih =>
    intro n h1 h2 h3 w result data pos cur err hw hres hbytes hlen
    obtain ⟨m, rfl⟩ : ∃ m, n = m + 1 := ⟨n - 1, by omega⟩
    have hceil1 : 1 ≤ (m + 1 + 7) / 8 := by omega
    have hposlt : pos < data.length := by omega
    have hrefill : readRefill data err pos cur 0 = .ok (pos + 1, data.getD pos 0, 8) := by
      simp [readRefill, Nat.not_le.mpr hposlt]
    have hbyte0 : data.getD pos 0 = nthByteBE w (m + 1) 0 := by
      have := hbytes 0 (by omega)
      simpa using this
    have hshl32 : ∀ b : Nat, b ≤ m + 1 → (result <<< b) % 2 ^ 32 = result * 2 ^ b := by
      intro b hb
      rw [Nat.shiftLeft_eq]
      apply Nat.mod_eq_of_lt
      calc result * 2 ^ b < 2 ^ (32 - (m + 1)) * 2 ^ b :=
            (Nat.mul_lt_mul_right (by positivity)).mpr hres
        _ = 2 ^ (32 - (m + 1) + b) := by rw [← pow_add]
        _ ≤ 2 ^ 32 := Nat.pow_le_pow_right (by norm_num) (by omega)
    by_cases hsmall : m + 1 ≤ 8
    · -- single refill, the whole count is consumed from one byte
      have hmin : min (m + 1) 8 = m + 1 := by omega
      have hbits : Nat.land (nthByteBE w (m + 1) 0 >>> (8 - (m + 1))) ((1 <<< (m + 1)) - 1)
          = w := by
        rw [Nat.one_shiftLeft, land_mask_eq_mod]
        unfold nthByteBE
        by_cases h8 : m + 1 = 8
        · rw [if_pos (by omega)]
          have e1 : m + 1 - 8 * (0 + 1) = 0 := by omega
          have e2 : 8 - (m + 1) = 0 := by omega
          have e3 : (2 : Nat) ^ (m + 1) = 256 := by rw [h8]; norm_num
          have hw2 : w < 256 := by rw [← e3]; exact hw
          rw [e1, e2, e3]
          simp [Nat.mod_eq_of_lt hw2]
        · rw [if_neg (by omega)]
          have e1 : m + 1 - 8 * 0 = m + 1 := by omega
          have e2 : 8 * (0 + 1) - (m + 1) = 8 - (m + 1) := by omega
          rw [e1, e2, Nat.mod_eq_of_lt hw, Nat.shiftLeft_eq, Nat.shiftRight_eq_div_pow,
            Nat.mul_div_cancel _ (by positivity), Nat.mod_eq_of_lt hw]
      refine ⟨nthByteBE w (m + 1) 0, 8 - (m + 1), ?_⟩
      have hceil : (m + 1 + 7) / 8 = 1 := by omega
      simp only [readBitsLoop, hrefill, hbyte0, hmin, hbits, hshl32 (m + 1) le_rfl, hceil]
      rw [lor_mul_pow_add_comm result hw]
      have hz : m + 1 - (m + 1) = 0 := by omega
      simp [hz, readBitsLoop]
    · -- a full byte is consumed, then recurse on the remaining count
      have hmin : min (m + 1) 8 = 8 := by omega
      have hb0lt : w >>> (m + 1 - 8) < 256 := by
        rw [Nat.shiftRight_eq_div_pow]
        apply Nat.div_lt_of_lt_mul
        calc w < 2 ^ (m + 1) := hw
          _ = 2 ^ (m + 1 - 8) * 256 := by
            rw [(by norm_num : (256 : Nat) = 2 ^ 8), ← pow_add]; congr 1; omega
      have hbyte0v : nthByteBE w (m + 1) 0 = w >>> (m + 1 - 8) := by
        unfold nthByteBE
        rw [if_pos (by omega)]
        have e1 : m + 1 - 8 * (0 + 1) = m + 1 - 8 := by omega
        rw [e1]
        exact Nat.mod_eq_of_lt hb0lt
      have hbits : Nat.land (nthByteBE w (m + 1) 0 >>> (8 - 8)) ((1 <<< 8) - 1)
          = w >>> (m + 1 - 8) := by
        rw [Nat.one_shiftLeft, land_mask_eq_mod, hbyte0v]
        norm_num
        exact hb0lt
      have hres1 : result * 2 ^ 8 + w >>> (m + 1 - 8) < 2 ^ (32 - (m + 1 - 8)) := by
        have hA : (2 : Nat) ^ (32 - (m + 1 - 8)) = 2 ^ (32 - (m + 1)) * 256 := by
          rw [(by norm_num : (256 : Nat) = 2 ^ 8), ← pow_add]; congr 1; omega
        rw [hA]
        calc result * 2 ^ 8 + w >>> (m + 1 - 8) < result * 256 + 256 := by
              have : (2 : Nat) ^ 8 = 256 := by norm_num
              omega
          _ = (result + 1) * 256 := by ring
          _ ≤ 2 ^ (32 - (m + 1)) * 256 := Nat.mul_le_mul_right _ hres
      have hbytes1 : ∀ j, j < (m + 1 - 8 + 7) / 8 →
          data.getD (pos + 1 + j) 0 = nthByteBE (w % 2 ^ (m + 1 - 8)) (m + 1 - 8) j := by
        intro j hj
        have hj2 : j + 1 < (m + 1 + 7) / 8 := by omega
        have := hbytes (j + 1) hj2
        rw [(by omega : pos + (j + 1) = pos + 1 + j)] at this
        rw [this]
        exact nthByteBE_succ w (m + 1) j (by omega) (by omega)
      obtain ⟨cur2, rem2, hrec⟩ := ih (m + 1 - 8) (by omega) (by omega) (by omega)
        (w % 2 ^ (m + 1 - 8)) (result * 2 ^ 8 + w >>> (m + 1 - 8)) data (pos + 1)
        (nthByteBE w (m + 1) 0) err
        (Nat.mod_lt _ (by positivity)) hres1 hbytes1 (by omega)
      refine ⟨cur2, rem2, ?_⟩
      simp only [readBitsLoop, hrefill, hbyte0, hmin, hbits, hshl32 8 (by omega)]
      rw [lor_mul_pow_add_comm result hb0lt]
      have hval : (result * 2 ^ 8 + w >>> (m + 1 - 8)) * 2 ^ (m + 1 - 8) + w % 2 ^ (m + 1 - 8)
          = result * 2 ^ (m + 1) + w := by
        rw [Nat.shiftRight_eq_div_pow]
        have hpow : (2 : Nat) ^ 8 * 2 ^ (m + 1 - 8) = 2 ^ (m + 1) := by
          rw [← pow_add]; congr 1; omega
        have hw2 : w / 2 ^ (m + 1 - 8) * 2 ^ (m + 1 - 8) + w % 2 ^ (m + 1 - 8) = w :=
          Nat.div_add_mod' w (2 ^ (m + 1 - 8))
        calc (result * 2 ^ 8 + w / 2 ^ (m + 1 - 8)) * 2 ^ (m + 1 - 8) + w % 2 ^ (m + 1 - 8)
            = result * (2 ^ 8 * 2 ^ (m + 1 - 8))
              + (w / 2 ^ (m + 1 - 8) * 2 ^ (m + 1 - 8) + w % 2 ^ (m + 1 - 8)) := by ring
          _ = result * 2 ^ (m + 1) + w := by rw [hpow, hw2]
      have hpos2 : pos + 1 + (m + 1 - 8 + 7) / 8 = pos + (m + 1 + 7) / 8 := by omega
      rw [hval, hpos2] at hrec
      have hz : 8 - 8 = 0 := by omega
      rw [(by omega : m + 1 - 8 = m - 7)] at hrec
      simpa [hz, (by omega : m + 1 - 8 = m - 7)] using hrec

end BitPacked

namespace BitPacked

theorem getD_set_eq (l : List Nat) (i a : Nat) (h : i < l.length) :
    (l.set i a).getD i 0 = a := by
  rw [List.getD_eq_getElem?_getD, List.getElem?_set_eq h]
  rfl

theorem getD_set_ne (l : List Nat) (i j a : Nat) (h : i ≠ j) :
    (l.set i a).getD j 0 = l.getD j 0 := by
  rw [List.getD_eq_getElem?_getD, List.getElem?_set_ne h, ← List.getD_eq_getElem?_getD]

theorem resizeTo_length (data : List Nat) (s : Nat) :
    (resizeTo data s).length = max s (data.length * 2) := by
  unfold resizeTo
  rw [List.length_append, List.length_replicate]
  omega

theorem resizeTo_getD_lt (data : List Nat) (s i : Nat) (h : i < data.length) :
    (resizeTo data s).getD i 0 = data.getD i 0 := by
  unfold resizeTo
  rw [List.getD_eq_getElem?_getD, List.getElem?_append_left h, ← List.getD_eq_getElem?_getD]

theorem resizeTo_getD_ge (data : List Nat) (s i : Nat) (h : data.length ≤ i) :
    (resizeTo data s).getD i 0 = 0 := by
  unfold resizeTo
  rw [List.getD_eq_getElem?_getD, List.getElem?_append_right h, List.getElem?_replicate]
  by_cases hc : i - data.length < max s (data.length * 2) - data.length
  · rw [if_pos hc]; rfl
  · rw [if_neg hc]; rfl

/-- The growth step at the head of the write loop preserves the prefix,
keeps everything at or past `pos` zero, and guarantees room at `pos`. -/
theorem growStep_facts (data : List Nat) (pos : Nat)
    (hzero : ∀ i, pos ≤ i → data.getD i 0 = 0) :
    pos < (if data.length ≤ pos then resizeTo data (pos + 1) else data).length ∧
    data.length ≤ (if data.length ≤ pos then resizeTo data (pos + 1) else data).length ∧
    (∀ i, i < pos → (if data.length ≤ pos then resizeTo data (pos + 1) else data).getD i 0
      = data.getD i 0) ∧
    (∀ i, pos ≤ i → (if data.length ≤ pos then resizeTo data (pos + 1) else data).getD i 0
      = 0) := by
  by_cases hgrow : data.length ≤ pos
  · rw [if_pos hgrow]
    refine ⟨by rw [resizeTo_length]; omega, by rw [resizeTo_length]; omega, ?_, ?_⟩
    · intro i hi
      by_cases hil : i < data.length
      · exact resizeTo_getD_lt data (pos + 1) i hil
      · rw [resizeTo_getD_ge data (pos + 1) i (by omega),
          List.getD_eq_default data 0 (by omega)]
    · intro i hi
      exact resizeTo_getD_ge data (pos + 1) i (by omega)
  · rw [if_neg hgrow]
    exact ⟨by omega, le_rfl, fun i _ => rfl, hzero⟩

theorem writeBitsLoop_spec :
    ∀ fuel n, 1 ≤ n → n ≤ 32 → n ≤ fuel →
    ∀ (u : Nat) (data : List Nat) (pos cur : Nat),
    u < 2 ^ 32 →
    (∀ i, pos ≤ i → data.getD i 0 = 0) →
    ∃ data2,
      writeBitsLoop fuel data pos cur 0 u n =
        .ok (data2, pos + n / 8, nthByteBE (u % 2 ^ n) n ((n - 1) / 8),
          if n % 8 = 0 then 0 else 8 - n % 8) ∧
      data.length ≤ data2.length ∧
      pos + (n + 7) / 8 ≤ data2.length ∧
      (∀ i, i < pos → data2.getD i 0 = data.getD i 0) ∧
      (∀ j, j < n / 8 → data2.getD (pos + j) 0 = nthByteBE (u % 2 ^ n) n j) ∧
      (∀ i, pos + n / 8 ≤ i → data2.getD i 0 = 0) := by
  intro fuel
  induction fuel with
  | zero => intro n h1 _ h3; omega
  | succ fuel ih =>
    intro n h1 h2 h3 u data pos cur hu hzero
    obtain ⟨m, rfl⟩ : ∃ m, n = m + 1 := ⟨n - 1, by omega⟩
    obtain ⟨hroom, hlen1, hpre1, hz1⟩ := growStep_facts data pos hzero
    set data1 := if data.length ≤ pos then resizeTo data (pos + 1) else data with hdata1
    by_cases hsmall : m + 1 ≤ 8
    · -- the whole count fits in the fresh byte
      have hmin : min (m + 1) 8 = m + 1 := by omega
      have hbits : Nat.land (sarPattern u (m + 1 - (m + 1))) ((1 <<< (m + 1)) - 1)
          = u % 2 ^ (m + 1) := by
        rw [(by omega : m + 1 - (m + 1) = 0), Nat.one_shiftLeft,
          sarPattern_land hu (by omega) (by omega)]
        simp
      by_cases h8 : m + 1 = 8
      · -- exactly one full byte: commit and stop
        obtain rfl : m = 7 := by omega
        have hbytelt : u % 256 < 256 := Nat.mod_lt _ (by norm_num)
        have hbits8 : Nat.land (sarPattern u 0) (1 <<< 8 - 1) = u % 256 := by
          rw [Nat.one_shiftLeft, sarPattern_land hu (by omega) (by omega)]
          show u % 2 ^ 8 = u % 256
          norm_num
        have hnb256 : nthByteBE (u % 256) 8 0 = u % 256 := by
          unfold nthByteBE
          norm_num
        refine ⟨data1.set pos (u % 256), ?_, ?_, ?_, ?_, ?_, ?_⟩
        · simp only [writeBitsLoop, if_true, hmin, hbits, Nat.zero_or]
          rw [← hdata1]
          norm_num [writeBitsLoop, Nat.zero_or]
          constructor
          · rw [natLor_zero, Nat.mod_mod_of_dvd _ dvd_rfl]
          · rw [natLor_zero]
            exact hnb256.symm
        · rw [List.length_set]; exact hlen1
        · rw [List.length_set]; omega
        · intro i hi
          rw [getD_set_ne _ _ _ _ (by omega), hpre1 i hi]
        · intro j hj
          have hj0 : j = 0 := by omega
          subst hj0
          rw [(by omega : pos + 0 = pos), getD_set_eq _ _ _ hroom]
          norm_num [hnb256]
        · intro i hi
          rw [getD_set_ne _ _ _ _ (by omega), hz1 i (by omega)]
      · -- fewer than eight bits: the byte stays pending
        have hrem2 : ¬ (8 - (m + 1) = 0) := by omega
        have hnb : nthByteBE (u % 2 ^ (m + 1)) (m + 1) 0
            = (u % 2 ^ (m + 1)) <<< (8 - (m + 1)) := by
          unfold nthByteBE
          rw [if_neg (by omega)]
          rw [(by omega : m + 1 - 8 * 0 = m + 1),
            (by omega : 8 * (0 + 1) - (m + 1) = 8 - (m + 1)),
            Nat.mod_mod_of_dvd _ dvd_rfl]
        refine ⟨data1, ?_, hlen1, by omega, hpre1, ?_, ?_⟩
        · simp only [writeBitsLoop, if_true, hmin, hbits, Nat.zero_or]
          rw [← hdata1]
          rw [if_neg hrem2, (by omega : m + 1 - (m + 1) = 0)]
          simp only [writeBitsLoop]
          have e1 : (m + 1) / 8 = 0 := by omega
          have e2 : (m + 1 - 1) / 8 = 0 := by omega
          have e3 : (m + 1) % 8 = m + 1 := by omega
          rw [e1, e2, e3, if_neg (by omega : ¬ m + 1 = 0), hnb, natLor_zero]
          norm_num
        · intro j hj
          have : (m + 1) / 8 = 0 := by omega
          omega
        · intro i hi
          have : (m + 1) / 8 = 0 := by omega
          exact hz1 i (by omega)
    · -- one full byte, then recurse on the rest
      have hmin : min (m + 1) 8 = 8 := by omega
      have hbits : Nat.land (sarPattern u (m + 1 - 8)) ((1 <<< 8) - 1)
          = (u >>> (m + 1 - 8)) % 256 := by
        rw [Nat.one_shiftLeft, sarPattern_land hu (by omega) (by omega)]
        norm_num
      have hbitslt : (u >>> (m + 1 - 8)) % 256 < 256 := Nat.mod_lt _ (by norm_num)
      have hcur : Nat.lor 0 (((u >>> (m + 1 - 8)) % 256) <<< (8 - 8))
          = (u >>> (m + 1 - 8)) % 256 := by
        rw [(by omega : 8 - 8 = 0)]
        exact natLor_zero _
      have hzero2 : ∀ i, pos + 1 ≤ i →
          (data1.set pos ((u >>> (m + 1 - 8)) % 256 % 256)).getD i 0 = 0 := by
        intro i hi
        rw [getD_set_ne _ _ _ _ (by omega), hz1 i (by omega)]
      obtain ⟨data3, hrec, hlen3, hceil3, hpre3, hbytes3, hz3⟩ := ih (m + 1 - 8)
        (by omega) (by omega) (by omega) u
        (data1.set pos ((u >>> (m + 1 - 8)) % 256 % 256)) (pos + 1)
        ((u >>> (m + 1 - 8)) % 256) hu hzero2
      refine ⟨data3, ?_, ?_, ?_, ?_, ?_, ?_⟩
      · simp only [writeBitsLoop, if_true, hmin, hbits, natLor_zero, Nat.shiftLeft_zero]
        rw [← hdata1]
        rw [(by omega : (8 : Nat) - 8 = 0), Nat.shiftLeft_zero]
        rw [(by omega : m + 1 - 8 = m - 7)] at hrec ⊢
        rw [hrec]
        have e1 : pos + 1 + (m - 7) / 8 = pos + (m + 1) / 8 := by omega
        have e2 : (m - 7 - 1) / 8 + 1 = (m + 1 - 1) / 8 := by omega
        have e3 : (m - 7) % 8 = (m + 1) % 8 := by omega
        have e4 : nthByteBE (u % 2 ^ (m - 7)) (m - 7) ((m - 7 - 1) / 8)
            = nthByteBE (u % 2 ^ (m + 1)) (m + 1) ((m + 1 - 1) / 8) := by
          rw [← e2]
          rw [nthByteBE_succ (u % 2 ^ (m + 1)) (m + 1) ((m - 7 - 1) / 8) (by omega) (by omega)]
          rw [(by omega : m + 1 - 8 = m - 7), Nat.mod_mod_of_dvd _ (pow_dvd_pow 2 (by omega))]
        rw [e1, e3, e4]
      · calc data.length ≤ data1.length := hlen1
          _ = (data1.set pos ((u >>> (m + 1 - 8)) % 256 % 256)).length :=
            (List.length_set _ _ _).symm
          _ ≤ data3.length := hlen3
      · omega
      · intro i hi
        rw [hpre3 i (by omega), getD_set_ne _ _ _ _ (by omega), hpre1 i hi]
      · intro j hj
        match j with
        | 0 =>
          rw [(by omega : pos + 0 = pos), hpre3 pos (by omega),
            getD_set_eq _ _ _ hroom]
          have hnb : nthByteBE (u % 2 ^ (m + 1)) (m + 1) 0 = (u >>> (m + 1 - 8)) % 256 := by
            unfold nthByteBE
            rw [if_pos (by omega)]
            rw [(by omega : m + 1 - 8 * (0 + 1) = m + 1 - 8), (by norm_num : (256 : Nat) = 2 ^ 8),
              shiftRight_mod_of_le (by omega)]
          rw [Nat.mod_mod_of_dvd _ dvd_rfl, hnb]
        | j + 1 =>
          have hj8 : j < (m + 1 - 8) / 8 := by omega
          rw [(by omega : pos + (j + 1) = pos + 1 + j), hbytes3 j hj8]
          rw [nthByteBE_succ (u % 2 ^ (m + 1)) (m + 1) j (by omega) (by omega),
            (by omega : m + 1 - 8 = m - 7) ,
            Nat.mod_mod_of_dvd _ (pow_dvd_pow 2 (by omega))]
      · intro i hi
        exact hz3 i (by omega)

end BitPacked

namespace BitPacked

/-- The read loop leaves fewer than eight pending bits whenever it starts
with fewer than eight (the transient value 8 set by a refill is consumed
at least partially in the same iteration). -/
theorem readBitsLoop_rem_lt8 (data : List Nat) (err : Err) :
    ∀ fuel pos cur rem result bitsLeft, rem < 8 →
    ∀ r p c q, readBitsLoop data err fuel pos cur rem result bitsLeft = .ok (r, p, c, q) →
    q < 8 := by
  intro fuel
  induction fuel with
  | zero =>
    intro pos cur rem result bitsLeft hrem r p c q h
    match bitsLeft, h with
    | 0, h => simp only [readBitsLoop, Except.ok.injEq, Prod.mk.injEq] at h; omega
  | succ fuel ih =>
    intro pos cur rem result bitsLeft hrem r p c q h
    match bitsLeft, h with
    | 0, h => simp only [readBitsLoop, Except.ok.injEq, Prod.mk.injEq] at h; omega
    | bl + 1, h =>
      simp only [readBitsLoop] at h
      rcases hre : readRefill data err pos cur rem with e | ⟨pos1, cur1, rem1⟩
      · rw [hre] at h; exact absurd h (by simp)
      · rw [hre] at h
        have hrem1 : 0 < rem1 ∧ rem1 ≤ 8 := by
          unfold readRefill at hre
          by_cases h0 : rem = 0
          · rw [if_pos h0] at hre
            by_cases hl : data.length ≤ pos
            · rw [if_pos hl] at hre; exact absurd hre (by simp)
            · rw [if_neg hl] at hre
              simp only [Except.ok.injEq, Prod.mk.injEq] at hre
              omega
          · rw [if_neg h0] at hre
            simp only [Except.ok.injEq, Prod.mk.injEq] at hre
            omega
        exact ih _ _ _ _ _ (by omega) r p c q h

/-- Same for the write loop. -/
theorem writeBitsLoop_rem_lt8 :
    ∀ fuel data pos cur rem value bitCount, rem < 8 →
    ∀ d p c q, writeBitsLoop fuel data pos cur rem value bitCount = .ok (d, p, c, q) →
    q < 8 := by
  intro fuel
  induction fuel with
  | zero =>
    intro data pos cur rem value bitCount hrem d p c q h
    match bitCount, h with
    | 0, h => simp only [writeBitsLoop, Except.ok.injEq, Prod.mk.injEq] at h; omega
  | succ fuel ih =>
    intro data pos cur rem value bitCount hrem d p c q h
    match bitCount, h with
    | 0, h => simp only [writeBitsLoop, Except.ok.injEq, Prod.mk.injEq] at h; omega
    | bc + 1, h =>
      simp only [writeBitsLoop] at h
      have hm8 : 1 ≤ min (bc + 1) 8 := le_min (by omega) (by omega)
      by_cases h0 : rem = 0
      · rw [if_pos h0] at h
        by_cases hend : 8 - min (bc + 1) 8 = 0
        · rw [if_pos hend] at h
          refine ih _ _ _ _ _ _ ?_ d p c q h
          omega
        · rw [if_neg hend] at h
          refine ih _ _ _ _ _ _ ?_ d p c q h
          omega
      · rw [if_neg h0] at h
        by_cases hend : rem - min (bc + 1) rem = 0
        · rw [if_pos hend] at h
          refine ih _ _ _ _ _ _ ?_ d p c q h
          omega
        · rw [if_neg hend] at h
          refine ih _ _ _ _ _ _ ?_ d p c q h
          omega

/-- The write loop never fails when given fuel at least the bit count:
every iteration writes at least one bit. -/
theorem writeBitsLoop_total :
    ∀ fuel data pos cur rem value bitCount, bitCount ≤ fuel →
    ∃ out, writeBitsLoop fuel data pos cur rem value bitCount = .ok out := by
  intro fuel
  induction fuel with
  | zero =>
    intro data pos cur rem value bitCount hf
    match bitCount with
    | 0 => exact ⟨_, rfl⟩
  | succ fuel ih =>
    intro data pos cur rem value bitCount hf
    match bitCount with
    | 0 => exact ⟨_, rfl⟩
    | bc + 1 =>
      simp only [writeBitsLoop]
      have hm8 : 1 ≤ min (bc + 1) 8 := le_min (by omega) (by omega)
      by_cases h0 : rem = 0
      · rw [if_pos h0]
        by_cases hend : 8 - min (bc + 1) 8 = 0
        · rw [if_pos hend]
          refine ih _ _ _ _ _ _ ?_
          omega
        · rw [if_neg hend]
          refine ih _ _ _ _ _ _ ?_
          omega
      · have hmr : 1 ≤ min (bc + 1) rem := le_min (by omega) (by omega)
        rw [if_neg h0]
        by_cases hend : rem - min (bc + 1) rem = 0
        · rw [if_pos hend]
          refine ih _ _ _ _ _ _ ?_
          omega
        · rw [if_neg hend]
          refine ih _ _ _ _ _ _ ?_
          omega

/-- The read loop fails with the underrun error when more bits are
demanded than are pending and the position is at or past the end. -/
theorem readBitsLoop_underrun (data : List Nat) (err : Err) :
    ∀ fuel pos cur rem result bitsLeft, rem < bitsLeft → bitsLeft ≤ fuel →
    data.length ≤ pos →
    readBitsLoop data err fuel pos cur rem result bitsLeft = .error err := by
  intro fuel
  induction fuel with
  | zero => intro pos cur rem result bitsLeft h1 h2 h3; omega
  | succ fuel ih =>
    intro pos cur rem result bitsLeft h1 h2 h3
    match bitsLeft, h1 with
    | bl + 1, h1 =>
      by_cases h0 : rem = 0
      · have herr : readRefill data err pos cur rem = .error err := by
          unfold readRefill
          rw [if_pos h0, if_pos h3]
        simp only [readBitsLoop, herr]
      · have hre : readRefill data err pos cur rem = .ok (pos, cur, rem) := by
          unfold readRefill
          rw [if_neg h0]
        simp only [readBitsLoop, hre]
        have hmin : min (bl + 1) rem = rem := by omega
        rw [hmin]
        exact ih _ _ _ _ _ (by omega) (by omega) h3

end BitPacked

namespace BitPacked

theorem testBit_natLand (m n k : Nat) :
    (Nat.land m n).testBit k = (m.testBit k && n.testBit k) := Nat.testBit_land m n k

theorem testBit_natLor (m n k : Nat) :
    (Nat.lor m n).testBit k = (m.testBit k || n.testBit k) := Nat.testBit_lor m n k

/-- A contiguous byte-field mask: `v & ((2 ^ k - 1) << s)` extracts the
`k` bits of `v` starting at position `s`, in place. -/
theorem land_byte_mask (v k s : Nat) :
    Nat.land v ((2 ^ k - 1) <<< s) = ((v >>> s) % 2 ^ k) <<< s := by
  apply Nat.eq_of_testBit_eq
  intro i
  simp only [testBit_natLand, Nat.testBit_shiftLeft, Nat.testBit_mod_two_pow,
    Nat.testBit_shiftRight, Nat.testBit_two_pow_sub_one]
  by_cases h1 : s ≤ i
  · by_cases h2 : i - s < k
    · simp [h1, h2, (by omega : s + (i - s) = i)]
    · simp [h1, h2]
  · simp [h1]

end BitPacked

namespace BitPacked

theorem lor_eq_add_of_dvd {a b k : Nat} (hd : 2 ^ k ∣ a) (hb : b < 2 ^ k) :
    Nat.lor a b = a + b := by
  obtain ⟨t, rfl⟩ := hd
  exact lor_mul_pow_add t hb

theorem land_255 (v : Nat) : Nat.land v 255 = v % 256 := by
  rw [(by norm_num : (255 : Nat) = 2 ^ 8 - 1), land_mask_eq_mod]
  norm_num

theorem land_ff00 (v : Nat) : Nat.land v 0xff00 = (v / 256 % 256) * 256 := by
  rw [(by norm_num [Nat.shiftLeft_eq] : (0xff00 : Nat) = (2 ^ 8 - 1) <<< 8), land_byte_mask]
  rw [Nat.shiftLeft_eq, Nat.shiftRight_eq_div_pow]
  norm_num

theorem land_ff0000 (v : Nat) : Nat.land v 0xff0000 = (v / 65536 % 256) * 65536 := by
  rw [(by norm_num [Nat.shiftLeft_eq] : (0xff0000 : Nat) = (2 ^ 8 - 1) <<< 16), land_byte_mask]
  rw [Nat.shiftLeft_eq, Nat.shiftRight_eq_div_pow]
  norm_num

theorem swapEndianness_two (v : Nat) (hv : v < 2 ^ 16) :
    swapEndianness v 2 = .ok ((v % 256) * 256 + v / 256) := by
  unfold swapEndianness
  simp only [Nat.mod_eq_of_lt (show v < 2 ^ 32 by omega)]
  congr 1
  rw [land_255]
  have h2 : Nat.land (v >>> 8) 255 = v / 256 := by
    rw [land_255, Nat.shiftRight_eq_div_pow]
    norm_num
    omega
  rw [h2, lor_shiftLeft_add _ (by omega)]
  norm_num

theorem swapEndianness_three (v : Nat) (hv : v < 2 ^ 24) :
    swapEndianness v 3 =
      .ok ((v % 256) * 65536 + (v / 256 % 256) * 256 + v / 65536) := by
  unfold swapEndianness
  simp only [Nat.mod_eq_of_lt (show v < 2 ^ 32 by omega)]
  congr 1
  rw [land_255, land_ff00]
  have h3 : Nat.land (v >>> 16) 255 = v / 65536 := by
    rw [land_255, Nat.shiftRight_eq_div_pow]
    norm_num
    omega
  have p16 : (2 : Nat) ^ 16 = 65536 := by norm_num
  have p8 : (2 : Nat) ^ 8 = 256 := by norm_num
  rw [h3, Nat.shiftLeft_eq, p16]
  rw [lor_eq_add_of_dvd (a := v % 256 * 65536) (k := 16)
    ⟨v % 256, by rw [p16]; ring⟩ (by rw [p16]; omega)]
  rw [lor_eq_add_of_dvd (k := 8)
    ⟨(v % 256 * 65536 + v / 256 % 256 * 256) / 256, by rw [p8]; omega⟩
    (by rw [p8]; omega)]

theorem swapEndianness_four (v : Nat) (hv : v < 2 ^ 32) :
    swapEndianness v 4 =
      .ok ((v % 256) * 16777216 + (v / 256 % 256) * 65536
        + (v / 65536 % 256) * 256 + v / 16777216) := by
  unfold swapEndianness
  simp only [Nat.mod_eq_of_lt hv]
  congr 1
  rw [land_255, land_ff00, land_ff0000]
  have h4 : Nat.land (v >>> 24) 255 = v / 16777216 := by
    rw [land_255, Nat.shiftRight_eq_div_pow]
    norm_num
    omega
  have h5 : ((v / 65536 % 256) * 65536) >>> 8 = (v / 65536 % 256) * 256 := by
    rw [Nat.shiftRight_eq_div_pow]
    rw [show (2 : Nat) ^ 8 = 256 from by norm_num]
    omega
  have p24 : (2 : Nat) ^ 24 = 16777216 := by norm_num
  have p16 : (2 : Nat) ^ 16 = 65536 := by norm_num
  have p8 : (2 : Nat) ^ 8 = 256 := by norm_num
  rw [h4, h5, Nat.shiftLeft_eq, Nat.shiftLeft_eq, p24, p8]
  rw [lor_eq_add_of_dvd (a := v % 256 * 16777216) (k := 24)
    ⟨v % 256, by rw [p24]; ring⟩ (by rw [p24]; omega)]
  rw [lor_eq_add_of_dvd (a := v % 256 * 16777216 + v / 256 % 256 * 256 * 256) (k := 16)
    ⟨(v % 256 * 16777216 + v / 256 % 256 * 256 * 256) / 65536, by rw [p16]; omega⟩
    (by rw [p16]; omega)]
  rw [lor_eq_add_of_dvd (k := 8)
    ⟨(v % 256 * 16777216 + v / 256 % 256 * 256 * 256 + v / 65536 % 256 * 256) / 256,
      by rw [p8]; omega⟩
    (by rw [p8]; omega)]
  omega

/-- The byte-order transform is an involution on values that fit in the
containing byte count. -/
theorem swapEndianness_involutive (c v : Nat) (hc : c = 2 ∨ c = 3 ∨ c = 4)
    (hv : v < 2 ^ (8 * c)) :
    ∃ w, swapEndianness v c = .ok w ∧ w < 2 ^ (8 * c) ∧ swapEndianness w c = .ok v := by
  have p16 : (2 : Nat) ^ 16 = 65536 := by norm_num
  have p24 : (2 : Nat) ^ 24 = 16777216 := by norm_num
  have p32 : (2 : Nat) ^ 32 = 4294967296 := by norm_num
  rcases hc with rfl | rfl | rfl
  · have hv' : v < 2 ^ 16 := by rw [p16]; rw [show 8 * 2 = 16 from rfl] at hv; omega
    refine ⟨_, swapEndianness_two v hv', ?_, ?_⟩
    · rw [show 8 * 2 = 16 from rfl, p16]
      rw [p16] at hv'
      omega
    · rw [swapEndianness_two _ (by rw [p16] at hv' ⊢; omega)]
      congr 1
      rw [p16] at hv'
      omega
  · have hv' : v < 2 ^ 24 := by rw [p24]; rw [show 8 * 3 = 24 from rfl] at hv; omega
    refine ⟨_, swapEndianness_three v hv', ?_, ?_⟩
    · rw [show 8 * 3 = 24 from rfl, p24]
      rw [p24] at hv'
      omega
    · rw [swapEndianness_three _ (by rw [p24] at hv' ⊢; omega)]
      congr 1
      rw [p24] at hv'
      set w := v % 256 * 65536 + v / 256 % 256 * 256 + v / 65536 with hw
      have e1 : w % 256 = v / 65536 := by omega
      have e2 : w / 256 % 256 = v / 256 % 256 := by omega
      have e3 : w / 65536 = v % 256 := by omega
      omega
  · have hv' : v < 2 ^ 32 := by rw [p32]; rw [show 8 * 4 = 32 from rfl] at hv; omega
    refine ⟨_, swapEndianness_four v hv', ?_, ?_⟩
    · rw [show 8 * 4 = 32 from rfl, p32]
      rw [p32] at hv'
      omega
    · rw [swapEndianness_four _ (by rw [p32] at hv' ⊢; omega)]
      congr 1
      rw [p32] at hv'
      set w := v % 256 * 16777216 + v / 256 % 256 * 65536 + v / 65536 % 256 * 256
        + v / 16777216 with hw
      have g1 : v / 256 / 256 = v / 65536 := by rw [Nat.div_div_eq_div_mul]
      have g2 : v / 65536 / 256 = v / 16777216 := by rw [Nat.div_div_eq_div_mul]
      have g3 : w / 256 / 256 = w / 65536 := by rw [Nat.div_div_eq_div_mul]
      have g4 : w / 65536 / 256 = w / 16777216 := by rw [Nat.div_div_eq_div_mul]
      have e1 : w % 256 = v / 16777216 := by omega
      have d2 : w / 256 = 65536 * (v % 256) + 256 * (v / 256 % 256) + v / 65536 % 256 := by
        omega
      have d3 : w / 65536 = 256 * (v % 256) + v / 256 % 256 := by omega
      have d4 : w / 16777216 = v % 256 := by omega
      have e2 : w / 256 % 256 = v / 65536 % 256 := by omega
      have e3 : w / 65536 % 256 = v / 256 % 256 := by
        rw [d3, Nat.add_comm, Nat.add_mul_mod_self_left, Nat.mod_mod_of_dvd _ dvd_rfl]
      rw [e1, e2, e3, d4]
      omega

end BitPacked

namespace BitPacked

theorem swapEndianness_isOk (v c : Nat) (hc : c = 2 ∨ c = 3 ∨ c = 4) :
    ∃ w, swapEndianness v c = .ok w := by
  rcases hc with rfl | rfl | rfl <;> exact ⟨_, rfl⟩

theorem mkBuffer_endian (e : Bool) :
    (P0.mkBuffer [] (if e then "big" else "little")).isBigEndian = e := by
  cases e <;> rfl

theorem seek_zero_spec (st : Buffer) :
    P0.seek st 0 = .ok { st with
      data := if 0 < st.remainingBits ∧ st.remainingBits < 8
        then st.data.set st.position (st.currentByte % 256) else st.data,
      position := 0, currentByte := 0, remainingBits := 0 } := by
  have hlen : ¬ ((st.data.length : Int) < 0) := by omega
  have hneg : ¬ ((0 : Int) < 0) := by omega
  by_cases h : 0 < st.remainingBits ∧ st.remainingBits < 8
  · simp [P0.seek, P0.alignToByte, h, hlen, hneg]
  · simp [P0.seek, P0.alignToByte, h, hlen, hneg]

theorem writeBits_ok (st : Buffer) (u n u2 : Nat) (h1 : 1 ≤ n) (h2 : n ≤ 32)
    (hrem : st.remainingBits = 0)
    (hz : ∀ i, st.position ≤ i → st.data.getD i 0 = 0)
    (hu : u < 2 ^ 32) (hu2 : u2 < 2 ^ 32)
    (hswap : (if 8 < n ∧ st.isBigEndian = false
        then swapEndianness u ((n + 7) / 8)
        else Except.ok u) = .ok u2) :
    ∃ st1, P0.writeBits st (u : ℚ) (n : Int) = .ok st1 ∧
      st1.isBigEndian = st.isBigEndian ∧
      st1.marks = st.marks ∧
      st1.position = st.position + n / 8 ∧
      st1.remainingBits = (if n % 8 = 0 then 0 else 8 - n % 8) ∧
      st1.currentByte = nthByteBE (u2 % 2 ^ n) n ((n - 1) / 8) ∧
      st.position + (n + 7) / 8 ≤ st1.data.length ∧
      (∀ j, j < n / 8 → st1.data.getD (st.position + j) 0 = nthByteBE (u2 % 2 ^ n) n j) := by
  unfold P0.writeBits
  rw [if_neg (by omega : ¬ ((n : Int) ≤ 0 ∨ 32 < (n : Int)))]
  simp only [Int.toNat_natCast, toUint32Q_natCast u hu, hswap, hrem]
  obtain ⟨data2, hloop, hlen, hceil, hpre, hbytes, hzero2⟩ :=
    writeBitsLoop_spec n n h1 h2 le_rfl u2 st.data st.position st.currentByte hu2 hz
  rw [hloop]
  exact ⟨_, rfl, rfl, rfl, rfl, rfl, rfl, hceil, hbytes⟩

theorem readBits_ok (st : Buffer) (w n : Nat) (h1 : 1 ≤ n) (h2 : n ≤ 32)
    (hrem : st.remainingBits = 0) (hw : w < 2 ^ n)
    (hbytes : ∀ j, j < (n + 7) / 8 → st.data.getD (st.position + j) 0 = nthByteBE w n j)
    (hlen : st.position + (n + 7) / 8 ≤ st.data.length) :
    ∃ r st1, P0.readBits st (n : Int) = .ok (r, st1) ∧
      (if 8 < n ∧ st.isBigEndian = false
        then swapEndianness w ((n + 7) / 8)
        else Except.ok w) = .ok r ∧
      st1.marks = st.marks ∧ st1.isBigEndian = st.isBigEndian := by
  unfold P0.readBits
  rw [if_neg (by omega : ¬ ((n : Int) ≤ 0 ∨ 32 < (n : Int)))]
  simp only [Int.toNat_natCast, hrem]
  obtain ⟨cur2, rem2, hloop⟩ := readBitsLoop_spec n n h1 h2 le_rfl w 0 st.data
    st.position st.currentByte (.range "Buffer underrun while reading bits") hw
    (by positivity) hbytes hlen
  rw [hloop]
  simp only [Nat.zero_mul, Nat.zero_add]
  by_cases hsw : 8 < n ∧ st.isBigEndian = false
  · rw [if_pos hsw, if_pos hsw]
    obtain ⟨r, hr⟩ := swapEndianness_isOk w ((n + 7) / 8) (by omega)
    rw [hr]
    exact ⟨r, _, rfl, rfl, rfl, rfl⟩
  · rw [if_neg hsw, if_neg hsw]
    exact ⟨w, _, rfl, rfl, rfl, rfl⟩

end BitPacked

namespace BitPacked

theorem getD_nil_zero : ∀ i, (0 : Nat) ≤ i → ([] : List Nat).getD i 0 = 0 := by
  intro i _
  rfl

theorem writeSeekRead_core (e : Bool) (n v u2 : Nat) (h1 : 1 ≤ n) (h2 : n ≤ 32)
    (hv : v < 2 ^ n) (hu2 : u2 < 2 ^ n)
    (hswap : (if 8 < n ∧ e = false then swapEndianness v ((n + 7) / 8)
      else Except.ok v) = .ok u2) :
    ∃ st1 st2 r st3,
      P0.writeBits (P0.mkBuffer [] (if e then "big" else "little")) (v : ℚ) (n : Int)
        = .ok st1 ∧
      P0.seek st1 0 = .ok st2 ∧
      P0.readBits st2 (n : Int) = .ok (r, st3) ∧
      (if 8 < n ∧ e = false then swapEndianness u2 ((n + 7) / 8)
        else Except.ok u2) = .ok r := by
  have hn32 : (2 : Nat) ^ n ≤ 2 ^ 32 := Nat.pow_le_pow_right (by norm_num) h2
  set st0 := P0.mkBuffer [] (if e then "big" else "little") with hst0
  have hend : st0.isBigEndian = e := mkBuffer_endian e
  have hmod : u2 % 2 ^ n = u2 := Nat.mod_eq_of_lt hu2
  obtain ⟨st1, hw, hwend, hwmarks, hwpos, hwrem, hwcur, hwlen, hwbytes⟩ :=
    writeBits_ok st0 v n u2 h1 h2 rfl getD_nil_zero (by omega) (by omega)
      (by rw [hend]; exact hswap)
  have hpos0 : st0.position = 0 := rfl
  rw [hpos0] at hwpos hwlen hwbytes
  simp only [Nat.zero_add] at hwpos hwlen hwbytes
  have hseek := seek_zero_spec st1
  set st2 : Buffer := { st1 with
      data := if 0 < st1.remainingBits ∧ st1.remainingBits < 8
        then st1.data.set st1.position (st1.currentByte % 256) else st1.data,
      position := 0, currentByte := 0, remainingBits := 0 } with hst2
  have hbytes2 : ∀ j, j < (n + 7) / 8 → st2.data.getD (0 + j) 0 = nthByteBE u2 n j := by
    intro j hj
    simp only [Nat.zero_add, hst2]
    by_cases hmod8 : n % 8 = 0
    · rw [if_neg (by rw [hwrem, if_pos hmod8]; omega)]
      have hj8 : j < n / 8 := by omega
      have := hwbytes j hj8
      rw [hmod] at this
      exact this
    · rw [if_pos (by rw [hwrem, if_neg hmod8]; constructor <;> omega)]
      by_cases hjlast : j = n / 8
      · subst hjlast
        have hcurlt : st1.currentByte < 256 := by
          rw [hwcur]
          exact nthByteBE_lt _ _ _ (by omega)
        rw [hwpos, getD_set_eq _ _ _ (by omega), Nat.mod_eq_of_lt hcurlt, hwcur, hmod]
        congr 1
        omega
      · have hj8 : j < n / 8 := by omega
        rw [hwpos, getD_set_ne _ _ _ _ (by omega)]
        have := hwbytes j hj8
        rw [hmod] at this
        exact this
  have hlen2 : 0 + (n + 7) / 8 ≤ st2.data.length := by
    simp only [Nat.zero_add, hst2]
    by_cases hc : 0 < st1.remainingBits ∧ st1.remainingBits < 8
    · rw [if_pos hc, List.length_set]; omega
    · rw [if_neg hc]; omega
  obtain ⟨r, st3, hr, hrswap, _, _⟩ := readBits_ok st2 u2 n h1 h2 rfl hu2
    (by simpa using hbytes2) (by simpa using hlen2)
  refine ⟨st1, st2, r, st3, hw, hseek, hr, ?_⟩
  have hend2 : st2.isBigEndian = e := by
    simp only [hst2]
    rw [hwend, hend]
  rw [hend2] at hrswap
  exact hrswap

end BitPacked

namespace BitPacked

/-- C1 (amended): on a fresh empty buffer, `write.bits(v, n)` followed by
`seek(0); read.bits(n)` returns exactly `v` for every bit count `1 ≤ n ≤ 32`
and every `v < 2 ^ n`, PROVIDED the buffer is big-endian, or `n ≤ 8`, or the
little-endian byte swap of `v` within `ceil(n / 8)` bytes still fits in `n`
bits.  (Without that proviso the swapped value is truncated to `n` bits by
the bit-packer and the round trip fails; see the counterexample.) -/
theorem C1_roundTripBits_amended (e : Bool) (n v : Nat) (h1 : 1 ≤ n) (h2 : n ≤ 32)
    (hv : v < 2 ^ n)
    (hok : e = true ∨ n ≤ 8 ∨
      ∀ w, swapEndianness v ((n + 7) / 8) = Except.ok w → w < 2 ^ n) :
    roundTripBits e (v : ℚ) (n : Int) = .ok v := by
  by_cases hsw : 8 < n ∧ e = false
  · have hc : (n + 7) / 8 = 2 ∨ (n + 7) / 8 = 3 ∨ (n + 7) / 8 = 4 := by omega
    have hv8 : v < 2 ^ (8 * ((n + 7) / 8)) := by
      refine lt_of_lt_of_le hv (Nat.pow_le_pow_right (by norm_num) (by omega))
    obtain ⟨w2, hw2, hw2lt, hw2inv⟩ := swapEndianness_involutive ((n + 7) / 8) v hc hv8
    have hu2lt : w2 < 2 ^ n := by
      rcases hok with he | hn | hwq
      · rw [he] at hsw
        exact absurd hsw.2 (by simp)
      · omega
      · exact hwq w2 hw2
    obtain ⟨st1, st2, r, st3, hw1, hs1, hr1, hrs⟩ :=
      writeSeekRead_core e n v w2 h1 h2 hv hu2lt (by rw [if_pos hsw]; exact hw2)
    rw [if_pos hsw, hw2inv] at hrs
    have hrv : v = r := Except.ok.inj hrs
    unfold roundTripBits
    simp only [hw1, hs1, hr1]
    rw [hrv]
  · obtain ⟨st1, st2, r, st3, hw1, hs1, hr1, hrs⟩ :=
      writeSeekRead_core e n v v h1 h2 hv hv (by rw [if_neg hsw])
    rw [if_neg hsw] at hrs
    have hrv : v = r := Except.ok.inj hrs
    unfold roundTripBits
    simp only [hw1, hs1, hr1]
    rw [hrv]

/-- C1 (witness for the amended claim): a 12-bit big-endian round trip. -/
theorem C1_roundTripBits_witness :
    roundTripBits true ((4080 : Nat) : ℚ) ((12 : Nat) : Int) = .ok 4080 :=
  C1_roundTripBits_amended true 12 4080 (by decide) (by decide) (by decide)
    (Or.inl rfl)

/-- C1 (counterexample): the claim as stated fails on the little-endian
buffer: `write.bits(0xff0, 12)` followed by `seek(0); read.bits(12)` returns
`0xf00`, not `0xff0` — the swapped value `0xf00f` is truncated to 12 bits
before packing. -/
theorem C1_roundTripBits_counterexample :
    roundTripBits false ((4080 : Nat) : ℚ) ((12 : Nat) : Int) = .ok 3840 ∧
      (3840 : Nat) ≠ 4080 := by
  constructor
  · rfl
  · decide

/-- C2: on the two-byte buffer `[0xff, 0x00]`, `read.bits(12)` returns
`0xff0` when the buffer is big-endian and `0xf00f` when it is
little-endian. -/
theorem C2_concrete_read12 :
    (P0.readBitsOp (P0.mkBuffer [0xff, 0x00] "big") 12).map Prod.fst
      = .ok 0xff0 ∧
    (P0.readBitsOp (P0.mkBuffer [0xff, 0x00] "little") 12).map Prod.fst
      = .ok 0xf00f := by
  constructor
  · rfl
  · rfl

end BitPacked

namespace BitPacked

theorem toUint32_lt (i : Int) : toUint32 i < 2 ^ 32 := by
  unfold toUint32
  have h1 := Int.emod_lt_of_pos i (show (0 : Int) < 2 ^ 32 by norm_num)
  have h2 := Int.emod_nonneg i (show (2 ^ 32 : Int) ≠ 0 by norm_num)
  omega

theorem toUint32Q_lt (q : ℚ) : toUint32Q q < 2 ^ 32 := toUint32_lt (jsTrunc q)

/-- C7: the byte-order swap transform `swapEndianness(·, n)` is an
involution for each containing byte count `n ∈ {2, 3, 4}`: applied twice
to any value below `2 ^ (8 n)` it yields the value back. -/
theorem C7_swapEndianness_involution (c v : Nat) (hc : c = 2 ∨ c = 3 ∨ c = 4)
    (hv : v < 2 ^ (8 * c)) :
    ∃ w, swapEndianness v c = .ok w ∧ swapEndianness w c = .ok v := by
  obtain ⟨w, hw1, _, hw2⟩ := swapEndianness_involutive c v hc hv
  exact ⟨w, hw1, hw2⟩

/-- C7 (witness): the 16-bit instance from the test suite. -/
theorem C7_swapEndianness_involution_witness :
    ∃ w, swapEndianness 0x1234 2 = .ok w ∧ swapEndianness w 2 = .ok 0x1234 :=
  C7_swapEndianness_involution 2 0x1234 (Or.inl rfl) (by decide)

/-- C10: from a byte-aligned state with `position < data.length`,
`#writeBits(v, 8)` stores `v` masked to eight bits (its `ToUint32`
pattern reduced mod 256) at `data[position]`, advances `position` by one,
and leaves the length of `data`, every other byte, `isBigEndian` and the
marks map unchanged. -/
theorem C10_writeBits8_frame (st : Buffer) (v : ℚ)
    (hrem : st.remainingBits = 0) (hpos : st.position < st.data.length) :
    ∃ st1, P0.writeBits st v 8 = .ok st1 ∧
      st1.data = st.data.set st.position (toUint32Q v % 256) ∧
      st1.position = st.position + 1 ∧
      st1.data.length = st.data.length ∧
      (∀ i, i ≠ st.position → st1.data.getD i 0 = st.data.getD i 0) ∧
      st1.isBigEndian = st.isBigEndian ∧
      st1.marks = st.marks := by
  have hu : toUint32Q v < 2 ^ 32 := toUint32Q_lt v
  have hbits : Nat.land (sarPattern (toUint32Q v) 0) (1 <<< 8 - 1) = toUint32Q v % 256 := by
    rw [Nat.one_shiftLeft, sarPattern_land hu (by omega) (by omega)]
    show toUint32Q v % 2 ^ 8 = toUint32Q v % 256
    norm_num
  unfold P0.writeBits
  rw [if_neg (by decide : ¬ ((8 : Int) ≤ 0 ∨ 32 < (8 : Int)))]
  rw [show (8 : Int).toNat = 8 from rfl]
  dsimp only
  rw [if_neg (by omega : ¬ ((8 : Nat) < 8 ∧ st.isBigEndian = false))]
  rw [hrem]
  simp only [writeBitsLoop, if_true, natLor_zero, Nat.shiftLeft_zero]
  norm_num [hbits]
  rw [if_neg (Nat.not_le.mpr hpos)]
  refine ⟨rfl, rfl, ?_⟩
  intro i hi
  rw [List.getElem?_set_ne (fun he => hi he.symm)]

/-- C10 (witness): writing the byte `0xAB` over a two-byte buffer. -/
theorem C10_writeBits8_frame_witness :
    ∃ st1, P0.writeBits (P0.mkBuffer [1, 2] "big") ((0xAB : Nat) : ℚ) 8 = .ok st1 ∧
      st1.data = [0xAB, 2] ∧ st1.position = 1 := by
  obtain ⟨st1, h1, h2, h3, _⟩ :=
    C10_writeBits8_frame (P0.mkBuffer [1, 2] "big") ((0xAB : Nat) : ℚ) rfl (by decide)
  refine ⟨st1, h1, ?_, h3⟩
  rw [h2]
  rfl

end BitPacked

namespace BitPacked

theorem toUint32_toInt32 (i : Int) : toUint32 (toInt32 i) = toUint32 i := by
  unfold toInt32 toUint32
  have h1 : ((2 : Int) ^ 32) = 4294967296 := by norm_num
  have h2 : ((2 : Nat) ^ 31) = 2147483648 := by norm_num
  rw [h1, h2]
  split
  · omega
  · omega

theorem jsOneShl_small (k : Nat) (h : k ≤ 30) : jsOneShl k = 2 ^ k := by
  unfold jsOneShl
  rw [Nat.mod_eq_of_lt (by omega), Nat.one_shiftLeft,
    toInt32_natCast _ (Nat.pow_lt_pow_right (by norm_num) (by omega : k < 31))]
  push_cast
  ring

theorem jsOneShl_toUint32 (k : Nat) (h : k ≤ 31) : toUint32 (jsOneShl k) = 2 ^ k := by
  unfold jsOneShl
  rw [Nat.mod_eq_of_lt (by omega), Nat.one_shiftLeft, toUint32_toInt32,
    toUint32_natCast _ (Nat.pow_lt_pow_right (by norm_num) (by omega : k < 32))]

theorem land_two_pow (u k : Nat) : Nat.land u (2 ^ k) = u / 2 ^ k % 2 * 2 ^ k := by
  rw [show Nat.land u (2 ^ k) = Nat.land u ((2 ^ 1 - 1) <<< k) from by
    rw [Nat.shiftLeft_eq]; norm_num]
  rw [land_byte_mask, Nat.shiftLeft_eq, Nat.shiftRight_eq_div_pow]
  norm_num

theorem toInt32_zero : toInt32 0 = 0 := by decide

theorem jsAnd_pow_eq_zero (u k : Nat) (hk : k ≤ 31) (hu : u < 2 ^ k) :
    jsAnd (u : Int) (jsOneShl k) = 0 := by
  unfold jsAnd
  rw [toUint32_natCast u
      (lt_of_lt_of_le hu (Nat.pow_le_pow_right (by norm_num) (by omega))),
    jsOneShl_toUint32 k hk, land_two_pow, Nat.div_eq_of_lt hu]
  norm_num
  exact toInt32_zero

theorem jsAnd_pow_sign (u k : Nat) (hk : k ≤ 30) (h1 : 2 ^ k ≤ u) (h2 : u < 2 ^ (k + 1)) :
    jsAnd (u : Int) (jsOneShl k) = 2 ^ k := by
  unfold jsAnd
  have hu32 : u < 2 ^ 32 := lt_of_lt_of_le h2 (Nat.pow_le_pow_right (by norm_num) (by omega))
  rw [toUint32_natCast u hu32, jsOneShl_toUint32 k (by omega), land_two_pow]
  have hd : u / 2 ^ k = 1 := by
    have ha : 1 ≤ u / 2 ^ k := (Nat.one_le_div_iff (by positivity)).mpr h1
    have hb : u / 2 ^ k < 2 := by
      apply Nat.div_lt_of_lt_mul
      calc u < 2 ^ (k + 1) := h2
        _ = 2 ^ k * 2 := by rw [pow_succ]
    omega
  rw [hd]
  norm_num
  rw [show ((2 : Int) ^ k) = ((2 ^ k : Nat) : Int) from by push_cast; ring,
    toInt32_natCast _ (Nat.pow_lt_pow_right (by norm_num) (by omega : k < 31))]

end BitPacked

namespace BitPacked

/-- C6 (amended): on a fresh (big-endian) buffer, `write.int(v, n)` followed
by `seek(0); read.int(n)` returns exactly `v` for every `1 ≤ n ≤ 32` and
every `-2 ^ (n-1) ≤ v < 2 ^ (n-1)`, PROVIDED `n ≤ 30` or `0 ≤ v`.  (For
`n = 31` and `n = 32` the biases `1 << (n-1)` and `1 << n` are JS int32
shifts, which make the sign handling wrap: negative values do not round
trip; see the counterexample.) -/
theorem C6_roundTripInt_amended (n : Nat) (v : Int) (h1 : 1 ≤ n) (h2 : n ≤ 32)
    (hlo : -(2 ^ (n - 1)) ≤ v) (hhi : v < 2 ^ (n - 1))
    (hok : n ≤ 30 ∨ 0 ≤ v) :
    roundTripInt (v : ℚ) (n : Int) = .ok v := by
  by_cases hv0 : 0 ≤ v
  · set u : Nat := v.toNat with hudef
    have hu : (u : Int) = v := Int.toNat_of_nonneg hv0
    have hult : u < 2 ^ (n - 1) := by
      have h3 : (u : Int) < ((2 ^ (n - 1) : Nat) : Int) := by
        rw [hu]; exact_mod_cast hhi
      exact_mod_cast h3
    have hun : u < 2 ^ n :=
      lt_of_lt_of_le hult (Nat.pow_le_pow_right (by norm_num) (by omega))
    obtain ⟨st1, st2, r, st3, hw1, hs1, hr1, hrs⟩ :=
      writeSeekRead_core true n u u h1 h2 hun hun (by rw [if_neg (by simp)])
    have hru : r = u := by
      rw [if_neg (by simp)] at hrs
      exact (Except.ok.inj hrs).symm
    have hwi : P0.writeInt (P0.mkBuffer [] "big") (v : ℚ) (n : Int) = .ok st1 := by
      have hcast : ((v : Int) : ℚ) = ((u : Nat) : ℚ) := by
        rw [← hu]; push_cast; ring
      simp only [P0.writeInt]
      rw [if_neg (not_lt.mpr (by exact_mod_cast hv0 : (0 : ℚ) ≤ (v : ℚ))), hcast]
      exact hw1
    have hri : P0.readInt st2 (n : Int) = .ok (v, st3) := by
      rw [hru] at hr1
      simp only [P0.readInt, hr1, Int.toNat_natCast]
      rw [if_neg (not_not_intro (jsAnd_pow_eq_zero u (n - 1) (by omega) hult)), hu]
    unfold roundTripInt
    simp only [hwi, hs1, hri]
  · push_neg at hv0
    have hn30 : n ≤ 30 := by
      rcases hok with h | h
      · exact h
      · omega
    set u : Nat := (v + 2 ^ n).toNat with hudef
    have hple : ((2 : Int) ^ (n - 1)) ≤ 2 ^ n := by
      apply pow_le_pow_right₀ (by norm_num)
      omega
    have hvnn : (0 : Int) ≤ v + 2 ^ n := by omega
    have hu : (u : Int) = v + 2 ^ n := Int.toNat_of_nonneg hvnn
    have hult : u < 2 ^ n := by
      have h3 : (u : Int) < ((2 ^ n : Nat) : Int) := by
        rw [hu]; push_cast; omega
      exact_mod_cast h3
    have hsuc : n - 1 + 1 = n := by omega
    have huge : 2 ^ (n - 1) ≤ u := by
      have h4 : ((2 ^ (n - 1) : Nat) : Int) ≤ (u : Int) := by
        rw [hu]
        have h5 : ((2 : Int) ^ n) = 2 ^ (n - 1) * 2 := by
          rw [← pow_succ, hsuc]
        push_cast
        omega
      exact_mod_cast h4
    obtain ⟨st1, st2, r, st3, hw1, hs1, hr1, hrs⟩ :=
      writeSeekRead_core true n u u h1 h2 hult hult (by rw [if_neg (by simp)])
    have hru : r = u := by
      rw [if_neg (by simp)] at hrs
      exact (Except.ok.inj hrs).symm
    have hwi : P0.writeInt (P0.mkBuffer [] "big") (v : ℚ) (n : Int) = .ok st1 := by
      simp only [P0.writeInt, Int.toNat_natCast]
      rw [if_pos (by exact_mod_cast hv0 : (v : ℚ) < 0), jsOneShl_small n hn30]
      rw [show (v : ℚ) + (((2 : Int) ^ n : Int) : ℚ) = ((u : Nat) : ℚ) from by
        push_cast
        exact_mod_cast hu.symm]
      exact hw1
    have hri : P0.readInt st2 (n : Int) = .ok (v, st3) := by
      rw [hru] at hr1
      simp only [P0.readInt, hr1, Int.toNat_natCast]
      have hsign : jsAnd ((u : Nat) : Int) (jsOneShl (n - 1)) = 2 ^ (n - 1) := by
        apply jsAnd_pow_sign u (n - 1) (by omega) huge
        rw [hsuc]
        exact hult
      rw [if_pos (by rw [hsign]; positivity), jsOneShl_small n hn30,
        show ((u : Nat) : Int) - 2 ^ n = v from by rw [hu]; ring]
    unfold roundTripInt
    simp only [hwi, hs1, hri]

/-- C6 (witness for the amended claim): the signed byte `-3` round-trips
through `write.int(-3, 8); seek(0); read.int(8)`. -/
theorem C6_roundTripInt_witness :
    roundTripInt ((-3 : Int) : ℚ) ((8 : Nat) : Int) = .ok (-3) :=
  C6_roundTripInt_amended 8 (-3) (by decide) (by decide) (by decide) (by decide)
    (Or.inl (by decide))

/-- C6 (counterexample): the claim as stated fails at `n = 32`: the bias
`1 << 32` wraps to `1` in JS int32 arithmetic, so `write.int(-1, 32)` packs
`0` and `seek(0); read.int(32)` returns `0`, not `-1`. -/
theorem C6_roundTripInt_counterexample :
    roundTripInt ((-1 : Int) : ℚ) ((32 : Nat) : Int) = .ok 0 ∧ (0 : Int) ≠ -1 := by
  constructor
  · have hw : P0.writeInt (P0.mkBuffer [] "big") ((-1 : Int) : ℚ) ((32 : Nat) : Int)
        = P0.writeBits (P0.mkBuffer [] "big") ((0 : Nat) : ℚ) ((32 : Nat) : Int) := by
      simp only [P0.writeInt, Int.toNat_natCast]
      rw [if_pos (by norm_num), show jsOneShl 32 = 1 from by decide,
        show ((-1 : Int) : ℚ) + ((1 : Int) : ℚ) = ((0 : Nat) : ℚ) from by norm_num]
    unfold roundTripInt
    rw [hw]
    rfl
  · decide

end BitPacked

namespace BitPacked

theorem setMarks_readBits (st : Buffer) (M : MarkName → Option Mark) (n : Int) :
    P0.readBits { st with marks := M } n
      = (P0.readBits st n).map fun p => (p.1, { p.2 with marks := M }) := by
  unfold P0.readBits
  by_cases hg : n ≤ 0 ∨ 32 < n
  · simp only [if_pos hg]
    rfl
  · simp only [if_neg hg]
    rcases hL : readBitsLoop st.data (Err.range "Buffer underrun while reading bits")
        n.toNat st.position st.currentByte st.remainingBits 0 n.toNat with
      e | ⟨result, pos, cur, rem⟩
    · simp only [hL]
      rfl
    · simp only [hL]
      by_cases hs : 8 < n.toNat ∧ st.isBigEndian = false
      · simp only [if_pos hs]
        rcases hS : swapEndianness result ((n.toNat + 7) / 8) with e | r
        · simp only [hS]
          rfl
        · simp only [hS]
          rfl
      · simp only [if_neg hs]
        rfl

theorem setMarks_alignToByte (st : Buffer) (M : MarkName → Option Mark) (last : Bool) :
    P0.alignToByte { st with marks := M } last
      = { P0.alignToByte st last with marks := M } := by
  unfold P0.alignToByte
  dsimp only
  split_ifs <;> rfl

theorem setMarks_readBytesLoop (c : Nat) : ∀ (st : Buffer) (M : MarkName → Option Mark),
    P0.readBytesLoop { st with marks := M } c
      = (P0.readBytesLoop st c).map fun p => (p.1, { p.2 with marks := M }) := by
  induction c with
  | zero =>
    intro st M
    rfl
  | succ c ih =>
    intro st M
    unfold P0.readBytesLoop
    rw [setMarks_readBits]
    rcases h8 : P0.readBits st 8 with e | ⟨b, st1⟩
    · simp only [h8]
      rfl
    · simp only [h8]
      dsimp only [Except.map]
      rw [ih st1 M]
      rcases hrec : P0.readBytesLoop st1 c with e | ⟨bs, st2⟩
      · simp only [hrec]
        rfl
      · simp only [hrec]
        rfl

theorem setMarks_readBytes (st : Buffer) (M : MarkName → Option Mark) (c : Nat) :
    P0.readBytes { st with marks := M } c
      = (P0.readBytes st c).map fun p => (p.1, { p.2 with marks := M }) := by
  unfold P0.readBytes
  rw [setMarks_alignToByte, setMarks_readBytesLoop]

theorem mark_kPeek_eq (st : Buffer) :
    P0.mark st .kPeekMark = { st with
      marks := fun k =>
        if k = .kPeekMark then some ⟨st.position, st.remainingBits, st.currentByte⟩
        else st.marks k } := rfl

theorem reset_kPeek_eq (st st1 : Buffer) :
    P0.reset { st1 with
      marks := fun k =>
        if k = .kPeekMark then some ⟨st.position, st.remainingBits, st.currentByte⟩
        else st.marks k } .kPeekMark
    = .ok { P0.alignToByte { st1 with
        marks := fun k =>
          if k = .kPeekMark then some ⟨st.position, st.remainingBits, st.currentByte⟩
          else st.marks k } false with
        position := st.position, remainingBits := st.remainingBits,
        currentByte := st.currentByte } := rfl

/-- C3 (amended): whenever the underlying read succeeds, `peek.bits(n)`
(resp. `peek.bytes(c)`) succeeds, returns the same value the plain read
would return, and restores `position`, `remainingBits` and `currentByte`
to exactly their pre-peek values.  (The claim's further "every subsequent
read returns the same value" part is FALSE: the `reset` inside a peek
calls `alignToByte`, which commits a pending partial byte into `data`,
so a later read can see changed bytes — see the counterexample.) -/
theorem C3_peek_cursor_amended :
    (∀ (st : Buffer) (n : Int) (v : Nat) (st1 : Buffer),
      P0.readBits st n = .ok (v, st1) →
      ∃ st2, P0.peekBits st n = .ok (v, st2) ∧ cursorOf st2 = cursorOf st) ∧
    (∀ (st : Buffer) (c : Nat) (v : List Nat) (st1 : Buffer),
      P0.readBytes st c = .ok (v, st1) →
      ∃ st2, P0.peekBytes st c = .ok (v, st2) ∧ cursorOf st2 = cursorOf st) := by
  constructor
  · intro st n v st1 h
    unfold P0.peekBits
    rw [mark_kPeek_eq, setMarks_readBits, h]
    dsimp only [Except.map]
    rw [reset_kPeek_eq]
    exact ⟨_, rfl, rfl⟩
  · intro st c v st1 h
    unfold P0.peekBytes
    rw [mark_kPeek_eq, setMarks_readBytes, h]
    dsimp only [Except.map]
    rw [reset_kPeek_eq]
    exact ⟨_, rfl, rfl⟩

/-- C3 (witness for the amended claim): peeking four bits of `[0xf0]`
returns `0xf` and leaves the cursor where it was. -/
theorem C3_peek_cursor_amended_witness :
    ∃ st2, P0.peekBits (P0.mkBuffer [0xf0] "big") 4 = .ok (0xf, st2) ∧
      cursorOf st2 = cursorOf (P0.mkBuffer [0xf0] "big") :=
  C3_peek_cursor_amended.1 (P0.mkBuffer [0xf0] "big") 4 0xf
    { data := [0xf0], position := 1, currentByte := 0xf0, remainingBits := 4,
      isBigEndian := true, marks := fun _ => none } (by rfl)

/-- C3 (counterexample): the claim as stated fails: on `[0xff, 0x00]`
(big-endian), `peek.bits(4)` restores the cursor but the `reset` inside it
commits the pending byte `0xff` into `data[1]`, so the subsequent
`read.bits(12)` returns `0xfff` instead of the `0xff0` it would have
returned had the peek not happened. -/
theorem C3_peek_counterexample :
    ∃ st2, P0.peekBits (P0.mkBuffer [0xff, 0x00] "big") 4 = .ok (0xf, st2) ∧
      cursorOf st2 = cursorOf (P0.mkBuffer [0xff, 0x00] "big") ∧
      (P0.readBitsOp st2 12).map Prod.fst = .ok 0xfff ∧
      (P0.readBitsOp (P0.mkBuffer [0xff, 0x00] "big") 12).map Prod.fst = .ok 0xff0 ∧
      (0xfff : Nat) ≠ 0xff0 :=
  ⟨{ data := [0xff, 0xff], position := 0, currentByte := 0, remainingBits := 0,
     isBigEndian := true,
     marks := fun k => if k = .kPeekMark then some ⟨0, 0, 0⟩ else none },
   rfl, rfl, rfl, rfl, by decide⟩

end BitPacked

namespace BitPacked

theorem alignToByte_marks (st : Buffer) (l : Bool) :
    (P0.alignToByte st l).marks = st.marks := by
  unfold P0.alignToByte
  split_ifs <;> rfl

theorem readBits_marks (st : Buffer) (n : Int) (v : Nat) (st1 : Buffer)
    (h : P0.readBits st n = .ok (v, st1)) : st1.marks = st.marks := by
  unfold P0.readBits at h
  split at h
  · cases h
  · dsimp only at h
    split at h
    · cases h
    · split at h
      · split at h
        · cases h
        · simp only [Except.ok.injEq, Prod.mk.injEq] at h
          rw [← h.2]
      · simp only [Except.ok.injEq, Prod.mk.injEq] at h
        rw [← h.2]

theorem writeBits_marks (st : Buffer) (q : ℚ) (n : Int) (st1 : Buffer)
    (h : P0.writeBits st q n = .ok st1) : st1.marks = st.marks := by
  unfold P0.writeBits at h
  split at h
  · cases h
  · dsimp only at h
    split at h
    · cases h
    · split at h
      · cases h
      · simp only [Except.ok.injEq] at h
        rw [← h]

theorem seek_marks (st : Buffer) (p : Int) (st1 : Buffer)
    (h : P0.seek st p = .ok st1) : st1.marks = st.marks := by
  unfold P0.seek at h
  split at h
  · cases h
  · simp only [Except.ok.injEq] at h
    rw [← h]
    show (P0.alignToByte (if (st.data.length : Int) < p
      then { st with data := resizeTo st.data p.toNat } else st) false).marks = st.marks
    rw [alignToByte_marks]
    split_ifs <;> rfl

theorem skip_marks (st : Buffer) (b : Int) (st1 : Buffer)
    (h : P0.skip st b = .ok st1) : st1.marks = st.marks :=
  seek_marks st _ st1 h

theorem readBytesLoop_marks (c : Nat) : ∀ (st : Buffer) (v : List Nat) (st1 : Buffer),
    P0.readBytesLoop st c = .ok (v, st1) → st1.marks = st.marks := by
  induction c with
  | zero =>
    intro st v st1 h
    simp only [P0.readBytesLoop, Except.ok.injEq, Prod.mk.injEq] at h
    rw [← h.2]
  | succ c ih =>
    intro st v st1 h
    unfold P0.readBytesLoop at h
    rcases h8 : P0.readBits st 8 with e | ⟨b, stA⟩
    · simp only [h8] at h
      cases h
    · simp only [h8] at h
      rcases hrec : P0.readBytesLoop stA c with e2 | ⟨bs, stB⟩
      · simp only [hrec] at h
        cases h
      · simp only [hrec, Except.ok.injEq, Prod.mk.injEq] at h
        rw [← h.2]
        exact (ih stA bs stB hrec).trans (readBits_marks st 8 b stA h8)

theorem readBytes_marks (st : Buffer) (c : Nat) (v : List Nat) (st1 : Buffer)
    (h : P0.readBytes st c = .ok (v, st1)) : st1.marks = st.marks := by
  unfold P0.readBytes at h
  exact (readBytesLoop_marks c _ v st1 h).trans (alignToByte_marks st false)

theorem writeBytesLoop_marks : ∀ (bs : List ℚ) (st st1 : Buffer),
    P0.writeBytesLoop st bs = .ok st1 → st1.marks = st.marks := by
  intro bs
  induction bs with
  | nil =>
    intro st st1 h
    simp only [P0.writeBytesLoop, Except.ok.injEq] at h
    rw [← h]
  | cons b bs ih =>
    intro st st1 h
    unfold P0.writeBytesLoop at h
    rcases hw : P0.writeBits st b 8 with e | stA
    · simp only [hw] at h
      cases h
    · simp only [hw] at h
      exact (ih stA st1 h).trans (writeBits_marks st b 8 stA hw)

theorem writeBytes_marks (st : Buffer) (bs : List ℚ) (st1 : Buffer)
    (h : P0.writeBytes st bs = .ok st1) : st1.marks = st.marks := by
  unfold P0.writeBytes at h
  exact (writeBytesLoop_marks bs _ st1 h).trans (alignToByte_marks st false)

theorem applyOp_marks (st : Buffer) (op : Op) (st1 : Buffer)
    (h : applyOp st op = .ok st1) : st1.marks = st.marks := by
  cases op with
  | rbits n =>
    unfold applyOp at h
    rcases hr : P0.readBits st n with e | ⟨v, stA⟩
    · simp only [hr] at h
      cases h
    · simp only [hr, Except.ok.injEq] at h
      rw [← h]
      exact readBits_marks st n v stA hr
  | rbytes c =>
    unfold applyOp at h
    rcases hr : P0.readBytes st c with e | ⟨v, stA⟩
    · simp only [hr] at h
      cases h
    · simp only [hr, Except.ok.injEq] at h
      rw [← h]
      exact readBytes_marks st c v stA hr
  | wbits q n => exact writeBits_marks st q n st1 h
  | wbytes bs => exact writeBytes_marks st bs st1 h
  | seekTo p => exact seek_marks st p st1 h
  | skipBy b => exact skip_marks st b st1 h

theorem runOps_marks : ∀ (ops : List Op) (st st1 : Buffer),
    runOps st ops = .ok st1 → st1.marks = st.marks := by
  intro ops
  induction ops with
  | nil =>
    intro st st1 h
    simp only [runOps, Except.ok.injEq] at h
    rw [← h]
  | cons op ops ih =>
    intro st st1 h
    unfold runOps at h
    rcases ha : applyOp st op with e | stA
    · simp only [ha] at h
      cases h
    · simp only [ha] at h
      exact (ih stA st1 h).trans (applyOp_marks st op stA ha)

theorem reset_of_marks (stx : Buffer) (name : MarkName) (p r c : Nat)
    (hx : stx.marks name = some ⟨p, r, c⟩) :
    P0.reset stx name = .ok { P0.alignToByte stx false with
      position := p, remainingBits := r, currentByte := c } := by
  unfold P0.reset
  simp only [hx]

/-- C5: `mark(name)` followed by any sequence of reads, writes and seeks
(each succeeding), then `reset(name)`, restores `position`, `remainingBits`
and `currentByte` to exactly their values at the mark; and from the reset
state, after any further such sequence, `reset(name)` again returns to that
same snapshot (resets are idempotent, not stack-like). -/
theorem C5_mark_reset_exact (st : Buffer) (name : MarkName) (ops : List Op) (st' : Buffer)
    (h : runOps (P0.mark st name) ops = .ok st') :
    ∃ st2, P0.reset st' name = .ok st2 ∧ cursorOf st2 = cursorOf st ∧
      ∀ ops2 st3, runOps st2 ops2 = .ok st3 →
        ∃ st4, P0.reset st3 name = .ok st4 ∧ cursorOf st4 = cursorOf st := by
  have hm : st'.marks = (P0.mark st name).marks := runOps_marks ops _ _ h
  have hentry : st'.marks name = some ⟨st.position, st.remainingBits, st.currentByte⟩ := by
    rw [hm]
    show (if name = name then some ⟨st.position, st.remainingBits, st.currentByte⟩
      else st.marks name) = _
    rw [if_pos rfl]
  refine ⟨_, reset_of_marks st' name _ _ _ hentry, rfl, ?_⟩
  intro ops2 st3 h3
  have hm3 : st3.marks = st'.marks := by
    rw [runOps_marks ops2 _ _ h3]
    exact alignToByte_marks st' false
  have hentry3 : st3.marks name = some ⟨st.position, st.remainingBits, st.currentByte⟩ := by
    rw [hm3, hentry]
  exact ⟨_, reset_of_marks st3 name _ _ _ hentry3, rfl⟩

/-- C5 (witness): mark a fresh one-byte buffer, read four bits, reset. -/
theorem C5_mark_reset_exact_witness :
    ∃ st2, P0.reset
        { data := [5], position := 1, currentByte := 5, remainingBits := 4,
          isBigEndian := true,
          marks := fun k => if k = .user "m" then some ⟨0, 0, 0⟩ else none }
        (.user "m") = .ok st2 ∧
      cursorOf st2 = cursorOf (P0.mkBuffer [5] "big") ∧
      ∀ ops2 st3, runOps st2 ops2 = .ok st3 →
        ∃ st4, P0.reset st3 (.user "m") = .ok st4 ∧
          cursorOf st4 = cursorOf (P0.mkBuffer [5] "big") :=
  C5_mark_reset_exact (P0.mkBuffer [5] "big") (.user "m") [.rbits 4]
    { data := [5], position := 1, currentByte := 5, remainingBits := 4,
      isBigEndian := true,
      marks := fun k => if k = .user "m" then some ⟨0, 0, 0⟩ else none } (by rfl)

end BitPacked

namespace BitPacked

/-- C4 (amended): the bit-count guard of the namespaced variant raises its
range error exactly when `bitCount ≤ 0` or `bitCount > 32` (there is NO
integrality check in that variant); its read loop raises the buffer-underrun
error when more bits are demanded than are pending while `position` is at or
past the end of `data`; and the `src/src/Buffer.js` variant raises the
"Value must be an integer" type error for a non-integer value and the
"positive integer" type error for a bad bit count.  (The claim's "writeBits
raises whenever value is not an integer" is FALSE for the canonical
namespaced variant, which accepts fractional values — see the
counterexample.) -/
theorem C4_guards_amended :
    (∀ (st : Buffer) (n : Int), n ≤ 0 ∨ 32 < n →
      P0.readBits st n = .error (.range "Bit count must be between 1 and 32")) ∧
    (∀ (st : Buffer) (q : ℚ) (n : Int), n ≤ 0 ∨ 32 < n →
      P0.writeBits st q n = .error (.range "Bit count must be between 1 and 32")) ∧
    (∀ (st : Buffer) (n : Int), ¬(n ≤ 0 ∨ 32 < n) →
      st.remainingBits < n.toNat → st.data.length ≤ st.position →
      P0.readBits st n = .error (.range "Buffer underrun while reading bits")) ∧
    (∀ (st : Buffer) (v bc : ℚ), ¬(¬(bc.den = 1) ∨ bc ≤ 0) → ¬(32 < bc) →
      ¬(v.den = 1) →
      BufferJs.writeBits st v bc = .error (.type "Value must be an integer")) ∧
    (∀ (st : Buffer) (v bc : ℚ), ¬(bc.den = 1) ∨ bc ≤ 0 →
      BufferJs.writeBits st v bc = .error (.type "Bit count must be a positive integer")) := by
  refine ⟨?_, ?_, ?_, ?_, ?_⟩
  · intro st n hg
    unfold P0.readBits
    rw [if_pos hg]
  · intro st q n hg
    unfold P0.writeBits
    rw [if_pos hg]
  · intro st n hg hrem hlen
    unfold P0.readBits
    rw [if_neg hg]
    simp only [readBitsLoop_underrun st.data (Err.range "Buffer underrun while reading bits")
      n.toNat st.position st.currentByte st.remainingBits 0 n.toNat hrem le_rfl hlen]
  · intro st v bc h1 h2 h3
    unfold BufferJs.writeBits
    rw [if_neg h1, if_neg h2, if_pos h3]
  · intro st v bc h1
    unfold BufferJs.writeBits
    rw [if_pos h1]

/-- C4 (witness): `read.bits(33)` raises the range error, `read.bits(8)` on
an empty buffer raises the underrun error, and the `Buffer.js` `writeBits`
rejects the value `5/2` with a type error. -/
theorem C4_guards_amended_witness :
    P0.readBits (P0.mkBuffer [] "big") 33
        = .error (.range "Bit count must be between 1 and 32") ∧
      P0.readBits (P0.mkBuffer [] "big") 8
        = .error (.range "Buffer underrun while reading bits") ∧
      BufferJs.writeBits (P0.mkBuffer [] "big") (mkRat 5 2) 8
        = .error (.type "Value must be an integer") :=
  ⟨C4_guards_amended.1 (P0.mkBuffer [] "big") 33 (by decide),
   C4_guards_amended.2.2.1 (P0.mkBuffer [] "big") 8 (by decide) (by decide) (by decide),
   C4_guards_amended.2.2.2.1 (P0.mkBuffer [] "big") (mkRat 5 2) 8 (by decide) (by decide)
     (by decide)⟩

/-- C4 (counterexample): the claim as stated fails for the canonical
namespaced variant: its `#writeBits` has no integrality check on the value,
so writing the non-integer `5/2` (JS `2.5`) over 8 bits SUCCEEDS instead of
raising an invalid-argument error. -/
theorem C4_value_check_counterexample :
    (∃ st1, P0.writeBits (P0.mkBuffer [] "big") (mkRat 5 2) 8 = .ok st1) ∧
      ¬((mkRat 5 2).den = 1) :=
  ⟨⟨_, rfl⟩, by decide⟩

end BitPacked

namespace BitPacked

theorem readBits_rem (st : Buffer) (n : Int) (v : Nat) (st1 : Buffer)
    (hst : st.remainingBits < 8)
    (h : P0.readBits st n = .ok (v, st1)) : st1.remainingBits < 8 := by
  unfold P0.readBits at h
  split at h
  · cases h
  · dsimp only at h
    rcases hL : readBitsLoop st.data (Err.range "Buffer underrun while reading bits")
        n.toNat st.position st.currentByte st.remainingBits 0 n.toNat with
      e | ⟨result, pos, cur, rem⟩
    · simp only [hL] at h
      cases h
    · simp only [hL] at h
      have hq : rem < 8 := readBitsLoop_rem_lt8 st.data _ n.toNat st.position st.currentByte
        st.remainingBits 0 n.toNat hst result pos cur rem hL
      split at h
      · split at h
        · cases h
        · simp only [Except.ok.injEq, Prod.mk.injEq] at h
          rw [← h.2]
          exact hq
      · simp only [Except.ok.injEq, Prod.mk.injEq] at h
        rw [← h.2]
        exact hq

theorem readBits_WF (st : Buffer) (n : Int) (v : Nat) (st1 : Buffer)
    (hst : WF st) (h : P0.readBits st n = .ok (v, st1)) : WF st1 := by
  refine ⟨readBits_rem st n v st1 hst.1 h, ?_⟩
  intro k m hm
  rw [readBits_marks st n v st1 h] at hm
  exact hst.2 k m hm

theorem writeBits_rem (st : Buffer) (q : ℚ) (n : Int) (st1 : Buffer)
    (hst : st.remainingBits < 8)
    (h : P0.writeBits st q n = .ok st1) : st1.remainingBits < 8 := by
  unfold P0.writeBits at h
  split at h
  · cases h
  · dsimp only at h
    by_cases hs : 8 < n.toNat ∧ st.isBigEndian = false
    · simp only [if_pos hs] at h
      rcases hS : swapEndianness (toUint32Q q) ((n.toNat + 7) / 8) with e | w
      · simp only [hS] at h
        cases h
      · simp only [hS] at h
        rcases hL : writeBitsLoop n.toNat st.data st.position st.currentByte
            st.remainingBits w n.toNat with e | ⟨d, p, c, qq⟩
        · simp only [hL] at h
          cases h
        · simp only [hL, Except.ok.injEq] at h
          rw [← h]
          exact writeBitsLoop_rem_lt8 n.toNat st.data st.position st.currentByte
            st.remainingBits w n.toNat hst d p c qq hL
    · simp only [if_neg hs] at h
      rcases hL : writeBitsLoop n.toNat st.data st.position st.currentByte
          st.remainingBits (toUint32Q q) n.toNat with e | ⟨d, p, c, qq⟩
      · simp only [hL] at h
        cases h
      · simp only [hL, Except.ok.injEq] at h
        rw [← h]
        exact writeBitsLoop_rem_lt8 n.toNat st.data st.position st.currentByte
          st.remainingBits (toUint32Q q) n.toNat hst d p c qq hL

theorem writeBits_WF (st : Buffer) (q : ℚ) (n : Int) (st1 : Buffer)
    (hst : WF st) (h : P0.writeBits st q n = .ok st1) : WF st1 := by
  refine ⟨writeBits_rem st q n st1 hst.1 h, ?_⟩
  intro k m hm
  rw [writeBits_marks st q n st1 h] at hm
  exact hst.2 k m hm

theorem alignToByte_WF (st : Buffer) (l : Bool) (hst : WF st) :
    WF (P0.alignToByte st l) := by
  refine ⟨?_, ?_⟩
  · unfold P0.alignToByte
    split_ifs <;> first | exact hst.1 | exact (by omega : (0 : Nat) < 8)
  · intro k m hm
    rw [alignToByte_marks st l] at hm
    exact hst.2 k m hm

theorem seek_WF (st : Buffer) (p : Int) (st1 : Buffer)
    (hst : WF st) (h : P0.seek st p = .ok st1) : WF st1 := by
  have hmk := seek_marks st p st1 h
  unfold P0.seek at h
  split at h
  · cases h
  · simp only [Except.ok.injEq] at h
    refine ⟨?_, ?_⟩
    · rw [← h]
      exact (by omega : (0 : Nat) < 8)
    · intro k m hm
      rw [hmk] at hm
      exact hst.2 k m hm

theorem readBytesLoop_rem (c : Nat) : ∀ (st : Buffer) (v : List Nat) (st1 : Buffer),
    st.remainingBits < 8 → P0.readBytesLoop st c = .ok (v, st1) →
    st1.remainingBits < 8 := by
  induction c with
  | zero =>
    intro st v st1 hst h
    simp only [P0.readBytesLoop, Except.ok.injEq, Prod.mk.injEq] at h
    rw [← h.2]
    exact hst
  | succ c ih =>
    intro st v st1 hst h
    unfold P0.readBytesLoop at h
    rcases h8 : P0.readBits st 8 with e | ⟨b, stA⟩
    · simp only [h8] at h
      cases h
    · simp only [h8] at h
      rcases hrec : P0.readBytesLoop stA c with e2 | ⟨bs, stB⟩
      · simp only [hrec] at h
        cases h
      · simp only [hrec, Except.ok.injEq, Prod.mk.injEq] at h
        rw [← h.2]
        exact ih stA bs stB (readBits_rem st 8 b stA hst h8) hrec

theorem readBytes_WF (st : Buffer) (c : Nat) (v : List Nat) (st1 : Buffer)
    (hst : WF st) (h : P0.readBytes st c = .ok (v, st1)) : WF st1 := by
  have hmk := readBytes_marks st c v st1 h
  unfold P0.readBytes at h
  refine ⟨readBytesLoop_rem c _ v st1 (alignToByte_WF st false hst).1 h, ?_⟩
  intro k m hm
  rw [hmk] at hm
  exact hst.2 k m hm

theorem writeBytesLoop_rem : ∀ (bs : List ℚ) (st st1 : Buffer),
    st.remainingBits < 8 → P0.writeBytesLoop st bs = .ok st1 →
    st1.remainingBits < 8 := by
  intro bs
  induction bs with
  | nil =>
    intro st st1 hst h
    simp only [P0.writeBytesLoop, Except.ok.injEq] at h
    rw [← h]
    exact hst
  | cons b bs ih =>
    intro st st1 hst h
    unfold P0.writeBytesLoop at h
    rcases hw : P0.writeBits st b 8 with e | stA
    · simp only [hw] at h
      cases h
    · simp only [hw] at h
      exact ih stA st1 (writeBits_rem st b 8 stA hst hw) h

theorem writeBytes_WF (st : Buffer) (bs : List ℚ) (st1 : Buffer)
    (hst : WF st) (h : P0.writeBytes st bs = .ok st1) : WF st1 := by
  have hmk := writeBytes_marks st bs st1 h
  unfold P0.writeBytes at h
  refine ⟨writeBytesLoop_rem bs _ st1 (alignToByte_WF st false hst).1 h, ?_⟩
  intro k m hm
  rw [hmk] at hm
  exact hst.2 k m hm

theorem applyOp_WF (st : Buffer) (op : Op) (st1 : Buffer)
    (hst : WF st) (h : applyOp st op = .ok st1) : WF st1 := by
  cases op with
  | rbits n =>
    unfold applyOp at h
    rcases hr : P0.readBits st n with e | ⟨v, stA⟩
    · simp only [hr] at h
      cases h
    · simp only [hr, Except.ok.injEq] at h
      rw [← h]
      exact readBits_WF st n v stA hst hr
  | rbytes c =>
    unfold applyOp at h
    rcases hr : P0.readBytes st c with e | ⟨v, stA⟩
    · simp only [hr] at h
      cases h
    · simp only [hr, Except.ok.injEq] at h
      rw [← h]
      exact readBytes_WF st c v stA hst hr
  | wbits q n => exact writeBits_WF st q n st1 hst h
  | wbytes bs => exact writeBytes_WF st bs st1 hst h
  | seekTo p => exact seek_WF st p st1 hst h
  | skipBy b => exact seek_WF st _ st1 hst h

theorem mark_WF (st : Buffer) (name : MarkName) (hst : WF st) :
    WF (P0.mark st name) := by
  refine ⟨hst.1, ?_⟩
  intro k m hm
  simp only [P0.mark] at hm
  split at hm
  · simp only [Option.some.injEq] at hm
    rw [← hm]
    exact hst.1
  · exact hst.2 k m hm

theorem reset_WF (st : Buffer) (name : MarkName) (st1 : Buffer)
    (hst : WF st) (h : P0.reset st name = .ok st1) : WF st1 := by
  unfold P0.reset at h
  rcases hm : st.marks name with _ | m
  · simp only [hm] at h
    cases h
  · simp only [hm, Except.ok.injEq] at h
    have hrm : m.remainingBits < 8 := hst.2 name m hm
    refine ⟨?_, ?_⟩
    · rw [← h]
      exact hrm
    · intro k m2 hm2
      have hmk : st1.marks = st.marks := by
        rw [← h]
        exact alignToByte_marks st false
      rw [hmk] at hm2
      exact hst.2 k m2 hm2

theorem peekBits_WF (st : Buffer) (n : Int) (v : Nat) (st1 : Buffer)
    (hst : WF st) (h : P0.peekBits st n = .ok (v, st1)) : WF st1 := by
  unfold P0.peekBits at h
  rcases hr : P0.readBits (P0.mark st .kPeekMark) n with e | ⟨w, stA⟩
  · simp only [hr] at h
    cases h
  · simp only [hr] at h
    rcases hres : P0.reset stA .kPeekMark with e | stB
    · simp only [hres] at h
      cases h
    · simp only [hres, Except.ok.injEq, Prod.mk.injEq] at h
      rw [← h.2]
      exact reset_WF stA .kPeekMark stB
        (readBits_WF (P0.mark st .kPeekMark) n w stA (mark_WF st .kPeekMark hst) hr) hres

theorem peekBytes_WF (st : Buffer) (c : Nat) (v : List Nat) (st1 : Buffer)
    (hst : WF st) (h : P0.peekBytes st c = .ok (v, st1)) : WF st1 := by
  unfold P0.peekBytes at h
  rcases hr : P0.readBytes (P0.mark st .kPeekMark) c with e | ⟨w, stA⟩
  · simp only [hr] at h
    cases h
  · simp only [hr] at h
    rcases hres : P0.reset stA .kPeekMark with e | stB
    · simp only [hres] at h
      cases h
    · simp only [hres, Except.ok.injEq, Prod.mk.injEq] at h
      rw [← h.2]
      exact reset_WF stA .kPeekMark stB
        (readBytes_WF (P0.mark st .kPeekMark) c w stA (mark_WF st .kPeekMark hst) hr) hres

/-- C8: the pending-bits invariant `0 ≤ remainingBits < 8` (together with
the same bound for every snapshot stored in the marks map) holds for a
fresh buffer and is preserved by every public operation of the namespaced
variant: `read.bits`/`read.bytes`/`write.bits`/`write.bytes`/`seek`/`skip`
(via `applyOp`), `peek.bits`, `peek.bytes`, `mark`, `reset`, `alignToByte`,
`getBuffer` and `clear`; the transient value 8 inside the bit loops is
never observable at an operation boundary. -/
theorem C8_pendingBits_invariant :
    (∀ (contents : List Nat) (endian : String), WF (P0.mkBuffer contents endian)) ∧
    (∀ (st : Buffer) (op : Op) (st1 : Buffer), WF st →
      applyOp st op = .ok st1 → WF st1) ∧
    (∀ (st : Buffer) (n : Int) (v : Nat) (st1 : Buffer), WF st →
      P0.peekBits st n = .ok (v, st1) → WF st1) ∧
    (∀ (st : Buffer) (c : Nat) (v : List Nat) (st1 : Buffer), WF st →
      P0.peekBytes st c = .ok (v, st1) → WF st1) ∧
    (∀ (st : Buffer) (name : MarkName), WF st → WF (P0.mark st name)) ∧
    (∀ (st : Buffer) (name : MarkName) (st1 : Buffer), WF st →
      P0.reset st name = .ok st1 → WF st1) ∧
    (∀ (st : Buffer) (l : Bool), WF st → WF (P0.alignToByte st l)) ∧
    (∀ st : Buffer, WF st → WF (P0.getBuffer st).2) ∧
    (∀ st : Buffer, WF (P0.clear st)) := by
  refine ⟨?_, ?_, ?_, ?_, ?_, ?_, ?_, ?_, ?_⟩
  · intro contents endian
    exact ⟨(by omega : (0 : Nat) < 8), fun k m hm => Option.noConfusion hm⟩
  · intro st op st1 hst h
    exact applyOp_WF st op st1 hst h
  · intro st n v st1 hst h
    exact peekBits_WF st n v st1 hst h
  · intro st c v st1 hst h
    exact peekBytes_WF st c v st1 hst h
  · intro st name hst
    exact mark_WF st name hst
  · intro st name st1 hst h
    exact reset_WF st name st1 hst h
  · intro st l hst
    exact alignToByte_WF st l hst
  · intro st hst
    exact alignToByte_WF st true hst
  · intro st
    exact ⟨(by omega : (0 : Nat) < 8), fun k m hm => Option.noConfusion hm⟩

/-- C8 (witness): reading four bits of a one-byte buffer preserves the
pending-bits invariant. -/
theorem C8_pendingBits_invariant_witness :
    WF { data := [5], position := 1, currentByte := 5, remainingBits := 4,
         isBigEndian := true, marks := fun _ => none } :=
  C8_pendingBits_invariant.2.1 (P0.mkBuffer [5] "big") (.rbits 4)
    { data := [5], position := 1, currentByte := 5, remainingBits := 4,
      isBigEndian := true, marks := fun _ => none }
    (C8_pendingBits_invariant.1 [5] "big") (by rfl)

end BitPacked

namespace BitPacked

theorem natLor_lt {x y k : Nat} (hx : x < 2 ^ k) (hy : y < 2 ^ k) : Nat.lor x y < 2 ^ k :=
  Nat.or_lt_two_pow hx hy

theorem natLand_le_left (x y : Nat) : Nat.land x y ≤ x := Nat.and_le_left

theorem natLand_le_right (x y : Nat) : Nat.land x y ≤ y := Nat.and_le_right

theorem toUint32_jsOr (a b : Int) : toUint32 (jsOr a b) = Nat.lor (toUint32 a) (toUint32 b) := by
  unfold jsOr
  rw [toUint32_toInt32, toUint32_natCast _ (natLor_lt (toUint32_lt a) (toUint32_lt b))]

theorem toUint32_jsAnd (a b : Int) : toUint32 (jsAnd a b) = Nat.land (toUint32 a) (toUint32 b) := by
  unfold jsAnd
  rw [toUint32_toInt32, toUint32_natCast _
    (lt_of_le_of_lt (natLand_le_left (toUint32 a) (toUint32 b)) (toUint32_lt a))]

theorem toUint32_jsShl (a : Int) (s : Nat) (hs : s < 32) (h : toUint32 a <<< s < 2 ^ 32) :
    toUint32 (jsShl a s) = toUint32 a <<< s := by
  unfold jsShl
  rw [Nat.mod_eq_of_lt hs, toUint32_toInt32, toUint32_natCast _ h]

theorem sarPattern_small (m s : Nat) (hm : m < 2 ^ 31) (hs : s < 32) :
    sarPattern m s = m >>> s := by
  unfold sarPattern
  rw [Nat.mod_eq_of_lt hs, toInt32_natCast m hm, Int.fdiv_eq_ediv _ (by positivity)]
  have hcastdiv : (m : Int) / ((2 : Int) ^ s) = ((m / 2 ^ s : Nat) : Int) := by
    have h2 : ((2 : Int) ^ s) = ((2 ^ s : Nat) : Int) := by push_cast; ring
    rw [h2]
    rfl
  rw [hcastdiv, toUint32_natCast _ (lt_of_le_of_lt (Nat.div_le_self _ _) (by omega)),
    Nat.shiftRight_eq_div_pow]

theorem le2be_swap (v c : Nat) (hv : v < 2 ^ 32) :
    (le2be (v : Int) c).map toUint32 = swapEndianness v c := by
  have hmod : v % 2 ^ 32 = v := Nat.mod_eq_of_lt hv
  have h255 : toUint32 (0xff : Int) = 0xff := by decide
  have hff00 : toUint32 (0xff00 : Int) = 0xff00 := by decide
  have hff0000 : toUint32 (0xff0000 : Int) = 0xff0000 := by decide
  have hvmod := Nat.mod_lt v (show 0 < 256 by norm_num)
  have hA0 : toUint32 (jsAnd (v : Int) 0xff) = v % 256 := by
    rw [toUint32_jsAnd, toUint32_natCast v hv, h255, land_255]
  have hB0 : toUint32 (jsAnd (v : Int) 0xff00) = v / 256 % 256 * 256 := by
    rw [toUint32_jsAnd, toUint32_natCast v hv, hff00, land_ff00]
  have hC0 : toUint32 (jsAnd (v : Int) 0xff0000) = v / 65536 % 256 * 65536 := by
    rw [toUint32_jsAnd, toUint32_natCast v hv, hff0000, land_ff0000]
  have hsar : ∀ s, s < 32 → s + 8 ≤ 32 →
      toUint32 (jsAnd (jsShr (v : Int) s) 0xff) = v >>> s % 2 ^ 8 := by
    intro s hs hs8
    rw [toUint32_jsAnd, h255,
      show toUint32 (jsShr (v : Int) s) = sarPattern v s from rfl,
      show (0xff : Nat) = 2 ^ 8 - 1 from by norm_num, sarPattern_land hv hs hs8]
  match c with
  | 0 => rfl
  | 1 => rfl
  | (k + 5) => rfl
  | 2 =>
    simp only [le2be, swapEndianness, Except.map, hmod]
    congr 1
    have hb1 : toUint32 (jsAnd (v : Int) 0xff) <<< 8 < 2 ^ 32 := by
      rw [hA0, Nat.shiftLeft_eq, show ((2 : Nat) ^ 8) = 256 from by norm_num,
        show ((2 : Nat) ^ 32) = 4294967296 from by norm_num]
      omega
    rw [toUint32_jsOr, toUint32_jsShl _ 8 (by omega) hb1, hA0, hsar 8 (by omega) (by omega),
      land_255, land_255]
    norm_num
  | 3 =>
    simp only [le2be, swapEndianness, Except.map, hmod]
    congr 1
    have hb1 : toUint32 (jsAnd (v : Int) 0xff) <<< 16 < 2 ^ 32 := by
      rw [hA0, Nat.shiftLeft_eq, show ((2 : Nat) ^ 16) = 65536 from by norm_num,
        show ((2 : Nat) ^ 32) = 4294967296 from by norm_num]
      omega
    rw [toUint32_jsOr, toUint32_jsOr, toUint32_jsShl _ 16 (by omega) hb1, hA0, hB0,
      hsar 16 (by omega) (by omega), land_255, land_255, land_ff00]
    norm_num
  | 4 =>
    simp only [le2be, swapEndianness, Except.map, hmod]
    congr 1
    have hb1 : toUint32 (jsAnd (v : Int) 0xff) <<< 24 < 2 ^ 32 := by
      rw [hA0, Nat.shiftLeft_eq, show ((2 : Nat) ^ 24) = 16777216 from by norm_num,
        show ((2 : Nat) ^ 32) = 4294967296 from by norm_num]
      omega
    have hb2 : toUint32 (jsAnd (v : Int) 0xff00) <<< 8 < 2 ^ 32 := by
      rw [hB0, Nat.shiftLeft_eq, show ((2 : Nat) ^ 8) = 256 from by norm_num,
        show ((2 : Nat) ^ 32) = 4294967296 from by norm_num]
      have := Nat.mod_lt (v / 256) (show 0 < 256 by norm_num)
      omega
    have hC : toUint32 (jsShr (jsAnd (v : Int) 0xff0000) 8)
        = (v / 65536 % 256 * 65536) >>> 8 := by
      rw [show jsAnd (v : Int) 0xff0000
          = toInt32 ((Nat.land (toUint32 (v : Int)) (toUint32 (0xff0000 : Int)) : Nat) : Int)
        from rfl, toUint32_natCast v hv, hff0000, land_ff0000,
        toInt32_natCast _ (by
          have := Nat.mod_lt (v / 65536) (show 0 < 256 by norm_num)
          rw [show ((2 : Nat) ^ 31) = 2147483648 from by norm_num]
          omega)]
      rw [show toUint32 (jsShr ((v / 65536 % 256 * 65536 : Nat) : Int) 8)
          = sarPattern (v / 65536 % 256 * 65536) 8 from rfl]
      rw [sarPattern_small _ 8 (by
          have := Nat.mod_lt (v / 65536) (show 0 < 256 by norm_num)
          rw [show ((2 : Nat) ^ 31) = 2147483648 from by norm_num]
          omega) (by omega)]
    rw [toUint32_jsOr, toUint32_jsOr, toUint32_jsOr, toUint32_jsShl _ 24 (by omega) hb1,
      toUint32_jsShl _ 8 (by omega) hb2, hA0, hB0, hC, hsar 24 (by omega) (by omega),
      land_255, land_255, land_ff00, land_ff0000]
    norm_num


theorem readBitsLoop_err_irrel (data : List Nat) (e1 e2 : Err) :
    ∀ fuel pos cur rem result bitsLeft out,
    readBitsLoop data e1 fuel pos cur rem result bitsLeft = .ok out →
    readBitsLoop data e2 fuel pos cur rem result bitsLeft = .ok out := by
  intro fuel
  induction fuel with
  | zero =>
    intro pos cur rem result bitsLeft out h
    match bitsLeft with
    | 0 => exact h
    | b + 1 => cases h
  | succ fuel ih =>
    intro pos cur rem result bitsLeft out h
    match bitsLeft with
    | 0 => exact h
    | b + 1 =>
      simp only [readBitsLoop] at h ⊢
      rcases hre : readRefill data e1 pos cur rem with e | ⟨pos1, cur1, rem1⟩
      · simp only [hre] at h
        cases h
      · simp only [hre] at h
        have hre2 : readRefill data e2 pos cur rem = .ok (pos1, cur1, rem1) := by
          unfold readRefill at hre ⊢
          by_cases h0 : rem = 0
          · rw [if_pos h0] at hre ⊢
            by_cases hl : data.length ≤ pos
            · rw [if_pos hl] at hre
              cases hre
            · rw [if_neg hl] at hre ⊢
              exact hre
          · rw [if_neg h0] at hre ⊢
            exact hre
        simp only [hre2]
        exact ih _ _ _ _ _ _ h

theorem readBitsLoop_result_lt (data : List Nat) (err : Err) :
    ∀ fuel pos cur rem result bitsLeft, result < 2 ^ 32 → bitsLeft ≤ 32 →
    ∀ r p c q, readBitsLoop data err fuel pos cur rem result bitsLeft = .ok (r, p, c, q) →
    r < 2 ^ 32 := by
  intro fuel
  induction fuel with
  | zero =>
    intro pos cur rem result bitsLeft hres hbl r p c q h
    match bitsLeft with
    | 0 =>
      simp only [readBitsLoop, Except.ok.injEq, Prod.mk.injEq] at h
      omega
    | b + 1 => cases h
  | succ fuel ih =>
    intro pos cur rem result bitsLeft hres hbl r p c q h
    match bitsLeft with
    | 0 =>
      simp only [readBitsLoop, Except.ok.injEq, Prod.mk.injEq] at h
      omega
    | b + 1 =>
      simp only [readBitsLoop] at h
      rcases hre : readRefill data err pos cur rem with e | ⟨pos1, cur1, rem1⟩
      · simp only [hre] at h
        cases h
      · simp only [hre] at h
        refine ih _ _ _ _ _ ?_ ?_ r p c q h
        · have hb32 : min (b + 1) rem1 ≤ 32 := by omega
          have hmask : Nat.land (cur1 >>> (rem1 - min (b + 1) rem1))
              ((1 <<< min (b + 1) rem1) - 1) < 2 ^ 32 := by
            have hle := natLand_le_right (cur1 >>> (rem1 - min (b + 1) rem1))
              ((1 <<< min (b + 1) rem1) - 1)
            have hpow : (1 : Nat) <<< min (b + 1) rem1 = 2 ^ min (b + 1) rem1 :=
              Nat.one_shiftLeft _
            have h2 : (2 : Nat) ^ min (b + 1) rem1 ≤ 2 ^ 32 :=
              Nat.pow_le_pow_right (by norm_num) hb32
            have h1lt : (1 : Nat) <<< min (b + 1) rem1 ≤ 2 ^ 32 := by
              rw [hpow]
              exact h2
            omega
          exact natLor_lt (Nat.mod_lt _ (by positivity)) hmask
        · omega


theorem flipEndian_update (st : Buffer) (pos cur rem : Nat) :
    flipEndian { data := st.data, position := pos, currentByte := cur,
                 remainingBits := rem, isBigEndian := !st.isBigEndian, marks := st.marks }
      = { st with position := pos, currentByte := cur, remainingBits := rem } := by
  unfold flipEndian
  dsimp only
  rw [Bool.not_not]

/-- C9 (amended): the two `readBits` implementations use OPPOSITE byte-swap
conventions (the namespaced variant swaps when the buffer is little-endian,
`src/src/Buffer.js` swaps when it is big-endian), so started from the same
cursor state they agree exactly when the endianness flag is FLIPPED: a
successful `#readBits(n)` of the namespaced variant on the flipped buffer
yields the same value and the same `position`/`remainingBits`/`currentByte`
as `Buffer.js`'s `readBits(n)` on the original buffer; with the same flag
they agree only for `n ≤ 8`, where no swap applies (see the
counterexample for `n > 8`). -/
theorem C9_readBits_refinement_amended (st : Buffer) (n : Nat) (h1 : 1 ≤ n) (h2 : n ≤ 32) :
    (∀ (v : Nat) (st2 : Buffer),
      P0.readBits (flipEndian st) ((n : Nat) : Int) = .ok (v, st2) →
      BufferJs.readBits st ((n : Nat) : ℚ) = .ok (v, flipEndian st2)) ∧
    (n ≤ 8 → ∀ (v : Nat) (st2 : Buffer),
      P0.readBits st ((n : Nat) : Int) = .ok (v, st2) →
      BufferJs.readBits st ((n : Nat) : ℚ) = .ok (v, st2)) := by
  have hgP : ¬(((n : Nat) : Int) ≤ 0 ∨ 32 < ((n : Nat) : Int)) := by omega
  have hden : (((n : Nat) : ℚ)).den = 1 := rfl
  have hpos : ¬(((n : Nat) : ℚ) ≤ 0) := by
    rw [not_le]
    exact_mod_cast (show 0 < n by omega)
  have hgB1 : ¬(¬(((n : Nat) : ℚ).den = 1) ∨ ((n : Nat) : ℚ) ≤ 0) :=
    fun h => h.elim (fun hA => hA hden) hpos
  have hgB2 : ¬(32 < ((n : Nat) : ℚ)) := by
    rw [not_lt]
    exact_mod_cast h2
  have hnum : (((n : Nat) : ℚ)).num.toNat = n := rfl
  constructor
  · intro v st2 h
    unfold P0.readBits at h
    rw [if_neg hgP] at h
    dsimp only [flipEndian] at h
    simp only [Int.toNat_natCast] at h
    unfold BufferJs.readBits
    rw [if_neg hgB1, if_neg hgB2]
    dsimp only
    rw [hnum]
    rcases hL : readBitsLoop st.data (Err.range "Buffer underrun while reading bits")
        n st.position st.currentByte st.remainingBits 0 n with e | ⟨result, pos, cur, rem⟩
    · simp only [hL] at h
      cases h
    · simp only [hL] at h
      have hL2 := readBitsLoop_err_irrel st.data _ (Err.range "Buffer read out of bounds")
        n st.position st.currentByte st.remainingBits 0 n _ hL
      simp only [hL2]
      have hreslt : result < 2 ^ 32 := readBitsLoop_result_lt st.data _ n st.position
        st.currentByte st.remainingBits 0 n (by positivity) h2 result pos cur rem hL
      by_cases hc : 8 < n ∧ st.isBigEndian = true
      · rw [if_pos (show 8 < n ∧ (!st.isBigEndian) = false from ⟨hc.1, by simp [hc.2]⟩)] at h
        rcases hS : swapEndianness result ((n + 7) / 8) with e | w
        · simp only [hS] at h
          cases h
        · simp only [hS, Except.ok.injEq, Prod.mk.injEq] at h
          obtain ⟨hv, hst2⟩ := h
          rw [if_pos hc]
          have hle := le2be_swap result ((n + 7) / 8) hreslt
          rw [hS] at hle
          rcases hld : le2be (result : Int) ((n + 7) / 8) with e | r
          · rw [hld] at hle
            cases hle
          · rw [hld] at hle
            simp only [Except.map, Except.ok.injEq] at hle
            simp only [hld]
            rw [← hst2, hle, hv, flipEndian_update]
      · have hcP : ¬(8 < n ∧ (!st.isBigEndian) = false) := by
          rintro ⟨h8, hflip⟩
          refine hc ⟨h8, ?_⟩
          cases hb : st.isBigEndian
          · rw [hb] at hflip
            simp at hflip
          · rfl
        rw [if_neg hcP] at h
        simp only [Except.ok.injEq, Prod.mk.injEq] at h
        obtain ⟨hv, hst2⟩ := h
        rw [if_neg hc, ← hst2, hv, flipEndian_update]
  · intro h8 v st2 h
    unfold P0.readBits at h
    rw [if_neg hgP] at h
    dsimp only at h
    simp only [Int.toNat_natCast] at h
    unfold BufferJs.readBits
    rw [if_neg hgB1, if_neg hgB2]
    dsimp only
    rw [hnum]
    rcases hL : readBitsLoop st.data (Err.range "Buffer underrun while reading bits")
        n st.position st.currentByte st.remainingBits 0 n with e | ⟨result, pos, cur, rem⟩
    · simp only [hL] at h
      cases h
    · simp only [hL] at h
      have hL2 := readBitsLoop_err_irrel st.data _ (Err.range "Buffer read out of bounds")
        n st.position st.currentByte st.remainingBits 0 n _ hL
      simp only [hL2]
      rw [if_neg (show ¬(8 < n ∧ st.isBigEndian = false) from fun hh => by omega)] at h
      rw [if_neg (show ¬(8 < n ∧ st.isBigEndian = true) from fun hh => by omega)]
      simp only [Except.ok.injEq, Prod.mk.injEq] at h
      obtain ⟨hv, hst2⟩ := h
      rw [← hst2, hv]


/-- C9 (witness): on `[0xff, 0x00]`, the `Buffer.js` reader with the
little-endian flag returns the same 12-bit value `0xff0` and cursor as the
namespaced reader with the big-endian flag. -/
theorem C9_readBits_refinement_amended_witness :
    BufferJs.readBits (P0.mkBuffer [0xff, 0x00] "little") ((12 : Nat) : ℚ)
      = .ok (0xff0, flipEndian
        { data := [0xff, 0x00], position := 2, currentByte := 0,
          remainingBits := 4, isBigEndian := true, marks := fun _ => none }) :=
  (C9_readBits_refinement_amended (P0.mkBuffer [0xff, 0x00] "little") 12
    (by decide) (by decide)).1 0xff0
    { data := [0xff, 0x00], position := 2, currentByte := 0,
      remainingBits := 4, isBigEndian := true, marks := fun _ => none } (by rfl)

/-- C9 (counterexample): the claim as stated fails: from the same state
(`[0xff, 0x00]`, big-endian) the `Buffer.js` `readBits(12)` returns
`0xf00f` while the namespaced `#readBits(12)` returns `0xff0`. -/
theorem C9_readBits_counterexample :
    (BufferJs.readBits (P0.mkBuffer [0xff, 0x00] "big") ((12 : Nat) : ℚ)).map Prod.fst
      = .ok 0xf00f ∧
    (P0.readBits (P0.mkBuffer [0xff, 0x00] "big") ((12 : Nat) : Int)).map Prod.fst
      = .ok 0xff0 ∧
    (0xf00f : Nat) ≠ 0xff0 :=
  ⟨rfl, rfl, by decide⟩

end BitPacked
